import Mathlib

/-
ShmRingBuffer and RingBuffer: a shallow embedding of `shmringbuffer.hh` and
`ring_buffer.hh`.

The shared segment holds a header (`ShmHeader`), the lock counters
(`ReadWriteLock`) and the record array `_v`.  Every buffer operation of the
source runs its body between `_lock->write_lock()` / `_lock->read_lock()` and
the matching unlock; the functions below are those bodies (the critical
sections), acting on the segment contents.  The lock itself is modelled
separately, one mutex-protected section per step.

Conventions of the embedding:

* `size_t _capacity` is a natural number.  The `int` fields `_begin`, `_end`
  and the `int` loop variable of `unparse` are integers, and every value
  stored into them goes through `to_int`, the wrap to 32 bits.  The
  expression `(i + 1) % _capacity` is `next_index_machine`: the sum is taken
  in `int`, converted to the 64-bit `size_t` for the remainder, and the
  result converted back on the store.  At `i = INT_MAX` the sum overflows the
  `int`, which the language leaves undefined; it is taken to wrap, as two's
  complement hardware does.
* The remainder by `_capacity` is undefined in the source when `_capacity`
  is `0`; `%` returns the dividend there.
* `_v + i` is slot `i` of the mapped record array, a function from the
  integer offsets to records; `memcpy(_v + i, &e, sizeof(e))` overwrites
  slot `i`.
* `T ret;` in `dump_front` is never initialised (`T` is a POD type).  The
  value it happens to hold is an argument `ret` of `dump_front`.
* The `for` loop of `unparse` is run with fuel and returns `none` when the
  fuel runs out before the loop condition fails.
-/

namespace ShmRing

/-! ### Machine arithmetic of the index update -/

/-- The largest `int`. -/
def INT_MAX : Nat := 2147483647

/-- Conversion to the 32-bit `int`, wrapping. -/
def to_int (z : Int) : Int := (2147483648 + z) % 4294967296 - 2147483648

/-- Conversion of an `int` to the 64-bit `size_t`. -/
def to_size_t (z : Int) : Nat := (z % 18446744073709551616).toNat

/-- The expression `(i + 1) % _capacity` as the machine evaluates it: the sum
in `int`, converted to `size_t` for the remainder, the result stored back
into an `int`. -/
def next_index_machine (i : Int) (cap : Nat) : Int :=
  to_int ((to_size_t (to_int (i + 1)) % cap : Nat) : Int)

/-! ### The segment and the operations of `ShmRingBuffer` -/

/-- Control header of the segment (`struct _ShmHeader`): `size_t _capacity`,
`int _begin`, `int _end`. -/
structure ShmHeader where
  _capacity : Nat
  _begin : Int
  _end : Int
deriving DecidableEq, Repr

/-- Counters of `class ReadWriteLock` (the mutex and the two condition
variables carry no data of their own). -/
structure ReadWriteLock where
  _nread : Nat
  _nread_waiters : Nat
  _nwrite : Nat
  _nwrite_waiters : Nat
deriving DecidableEq, Repr

/-- Contents of the mapped segment as seen through the handle:
`_hdr`, `_lock` and the record array `_v`. -/
structure ShmRingBuffer (T : Type) where
  _hdr : ShmHeader
  _lock : ReadWriteLock
  _v : Int → T

variable {T : Type}

/-- Method `ReadWriteLock::init`: all four counters are zeroed. -/
def ReadWriteLock.init : ReadWriteLock :=
  { _nread := 0, _nread_waiters := 0, _nwrite := 0, _nwrite_waiters := 0 }

/-- Query `ShmRingBuffer::capacity()`. -/
def capacity (s : ShmRingBuffer T) : Nat := s._hdr._capacity

/-- Query `ShmRingBuffer::begin()`: the `int` field converted to `size_t`. -/
def ShmRingBuffer.begin (s : ShmRingBuffer T) : Nat := to_size_t s._hdr._begin

/-- Query `ShmRingBuffer::end()`: the `int` field converted to `size_t`. -/
def ShmRingBuffer.end (s : ShmRingBuffer T) : Nat := to_size_t s._hdr._end

/-- The tail of `ShmRingBuffer::init` executed by the owner (`master`) once
the segment `seg` is mapped: the header is set to `cap, 0, 0`, the lock is
initialised, the record slots are left as mapped. -/
def init_master (cap : Nat) (seg : ShmRingBuffer T) : ShmRingBuffer T :=
  { _hdr := { _capacity := cap, _begin := 0, _end := 0 }
    _lock := ReadWriteLock.init
    _v := seg._v }

/-- Method `ShmRingBuffer::clear()`: `_begin = _end = 0`, nothing else. -/
def clear (s : ShmRingBuffer T) : ShmRingBuffer T :=
  { s with _hdr := { s._hdr with _begin := 0, _end := 0 } }

/-- Method `ShmRingBuffer::push_back(e)`: store `e` at slot `_end`, set
`_end = (_end + 1) % _capacity`, and when `_end` meets `_begin` set
`_begin = (_begin + 1) % _capacity` too. -/
def push_back (s : ShmRingBuffer T) (e : T) : ShmRingBuffer T :=
  let v := Function.update s._v s._hdr._end e
  let end1 := next_index_machine s._hdr._end s._hdr._capacity
  if end1 = s._hdr._begin then
    { s with
      _hdr := { s._hdr with
        _end := end1, _begin := next_index_machine s._hdr._begin s._hdr._capacity }
      _v := v }
  else
    { s with _hdr := { s._hdr with _end := end1 }, _v := v }

/-- Method `ShmRingBuffer::dump_front()`: returns the record and the segment
afterwards.  `ret` is the content of the uninitialised local `T ret;`.  When
`_begin != _end` the record at `_begin` is copied into it and `_begin` is set
to `(_begin + 1) % _capacity`; otherwise `ret` is returned as it is. -/
def dump_front (s : ShmRingBuffer T) (ret : T) : T × ShmRingBuffer T :=
  if s._hdr._begin ≠ s._hdr._end then
    (s._v s._hdr._begin,
      { s with
        _hdr := { s._hdr with
          _begin := next_index_machine s._hdr._begin s._hdr._capacity } })
  else
    (ret, s)

/-- The `for` loop of `unparse`, with the `int` loop variable at `i`: the
records of the slots it visits, in order; `none` when `fuel` iterations do
not reach `i == _end`. -/
def unparse_loop (s : ShmRingBuffer T) : Nat → Int → Option (List T)
  | 0, _ => none
  | fuel + 1, i =>
    if i = s._hdr._end then some []
    else (unparse_loop s fuel (next_index_machine i s._hdr._capacity)).map
      (fun rest => s._v i :: rest)

/-- The records visited by `unparse`: nothing when `_begin == _end`,
otherwise the loop from `_begin`. -/
def iterate (s : ShmRingBuffer T) (fuel : Nat) : Option (List T) :=
  if s._hdr._begin = s._hdr._end then some []
  else unparse_loop s fuel s._hdr._begin

/-- Method `ShmRingBuffer::unparse()`: the concatenation of `r.unparse() + "\n"`
over the visited records `r`; `render` is the record type's `unparse`. -/
def unparse (s : ShmRingBuffer T) (fuel : Nat) (render : T → String) : Option String :=
  (iterate s fuel).map (fun rs => String.join (rs.map (fun r => render r ++ "\n")))

/-- Header invariant of the data model: both indices in `[0, _capacity)`. -/
def InRange (s : ShmRingBuffer T) : Prop :=
  (0 ≤ s._hdr._begin ∧ s._hdr._begin < (s._hdr._capacity : Int)) ∧
    (0 ≤ s._hdr._end ∧ s._hdr._end < (s._hdr._capacity : Int))

instance (s : ShmRingBuffer T) : Decidable (InRange s) := by
  unfold InRange
  infer_instance

/-- Pushing a sequence of records, first to last. -/
def push_all (s : ShmRingBuffer T) (xs : List T) : ShmRingBuffer T :=
  xs.foldl push_back s

/-- The records of `k` consecutive slots of a ring of `c` slots, from slot
`i` on. -/
def window (v : Nat → T) (c i k : Nat) : List T :=
  (List.range k).map (fun j => v ((i + j) % c))

/-- Number of resident records of a state with indices in range: the
distance from `_begin` to `_end` around the ring. -/
def resident (s : ShmRingBuffer T) : Nat :=
  (s._hdr._end.toNat + s._hdr._capacity - s._hdr._begin.toNat) % s._hdr._capacity

/-- The resident records in ring order, read off the slots directly. -/
def contents (s : ShmRingBuffer T) : List T :=
  window (fun n => s._v (n : Int)) s._hdr._capacity s._hdr._begin.toNat (resident s)

/-! ### The read-write lock, one mutex-protected section per step

The counters are `uint32_t` in the source and natural numbers here; in every
reachable state each counter equals the number of threads in the matching
phase (`lockInv_reachable`), so no decrement is ever applied to a zero
counter.
`pthread_cond_wait` may return at any time (spurious wake-ups are allowed),
so a waiting thread may run its wake section in any state. -/

/-- The two condition variables of the lock. -/
inductive Cond where
  | rcond
  | wcond
deriving DecidableEq, Repr

/-- The condition-variable call an unlock issues before releasing the
mutex (`Condition::signal`, `Condition::broadcast`), if any. -/
inductive Notify where
  | nothing
  | signal (c : Cond)
  | broadcast (c : Cond)
deriving DecidableEq, Repr

/-- First section of `read_lock`, from `_mtx.lock()` to the first
`_rcond.wait` or to the return: with a writer active or waiting the caller
registers as a waiting reader (`false`), otherwise it becomes an active
reader (`true`). -/
def ReadWriteLock.read_lock (l : ReadWriteLock) : ReadWriteLock × Bool :=
  if l._nwrite ≠ 0 ∨ l._nwrite_waiters ≠ 0 then
    ({ l with _nread_waiters := l._nread_waiters + 1 }, false)
  else
    ({ l with _nread := l._nread + 1 }, true)

/-- Section of `read_lock` run when `_rcond.wait` returns: the `while`
condition is tested again; the caller waits on (`false`) or deregisters and
becomes an active reader (`true`). -/
def ReadWriteLock.read_lock_wake (l : ReadWriteLock) : ReadWriteLock × Bool :=
  if l._nwrite ≠ 0 ∨ l._nwrite_waiters ≠ 0 then
    (l, false)
  else
    ({ l with _nread_waiters := l._nread_waiters - 1, _nread := l._nread + 1 }, true)

/-- Method `read_unlock`: one active reader less; waiting writers are woken
with a broadcast. -/
def ReadWriteLock.read_unlock (l : ReadWriteLock) : ReadWriteLock × Notify :=
  let l1 := { l with _nread := l._nread - 1 }
  if l1._nwrite_waiters ≠ 0 then (l1, .broadcast .wcond) else (l1, .nothing)

/-- First section of `write_lock`: with a reader or writer active the caller
registers as a waiting writer (`false`), otherwise it becomes the active
writer (`true`). -/
def ReadWriteLock.write_lock (l : ReadWriteLock) : ReadWriteLock × Bool :=
  if l._nread ≠ 0 ∨ l._nwrite ≠ 0 then
    ({ l with _nwrite_waiters := l._nwrite_waiters + 1 }, false)
  else
    ({ l with _nwrite := l._nwrite + 1 }, true)

/-- Section of `write_lock` run when `_wcond.wait` returns. -/
def ReadWriteLock.write_lock_wake (l : ReadWriteLock) : ReadWriteLock × Bool :=
  if l._nread ≠ 0 ∨ l._nwrite ≠ 0 then
    (l, false)
  else
    ({ l with _nwrite_waiters := l._nwrite_waiters - 1, _nwrite := l._nwrite + 1 }, true)

/-- Method `write_unlock`: the active writer leaves; waiting writers are
woken with a broadcast on `_wcond`, else waiting readers with a broadcast on
`_rcond`. -/
def ReadWriteLock.write_unlock (l : ReadWriteLock) : ReadWriteLock × Notify :=
  let l1 := { l with _nwrite := l._nwrite - 1 }
  if l1._nwrite_waiters ≠ 0 then (l1, .broadcast .wcond)
  else if l1._nread_waiters ≠ 0 then (l1, .broadcast .rcond)
  else (l1, .nothing)

/-- Where a thread stands with respect to the lock. -/
inductive Phase where
  | idle
  | read_waiting
  | reading
  | write_waiting
  | writing
deriving DecidableEq, Repr

/-- The sections a thread can run. -/
inductive Step where
  | read_lock
  | read_lock_wake
  | read_unlock
  | write_lock
  | write_lock_wake
  | write_unlock
deriving DecidableEq, Repr

/-- The shared lock together with the phase of each thread using it. -/
structure LockSystem where
  lock : ReadWriteLock
  phase : List Phase
deriving DecidableEq, Repr

/-- After `ReadWriteLock::init`, with `n` threads, none of them in a call. -/
def LockSystem.init (n : Nat) : LockSystem :=
  { lock := ReadWriteLock.init, phase := List.replicate n Phase.idle }

/-- Thread `t` runs one section.  A lock call starts from `idle`, a wake
section from the matching waiting phase, and an unlock is issued only by a
thread holding the lock in that mode; anything else is `none`. -/
def LockSystem.step (sys : LockSystem) (t : Nat) : Step → Option LockSystem
  | .read_lock =>
    if sys.phase[t]? = some .idle then
      some { lock := sys.lock.read_lock.1
             phase := sys.phase.set t (if sys.lock.read_lock.2 then .reading else .read_waiting) }
    else none
  | .read_lock_wake =>
    if sys.phase[t]? = some .read_waiting then
      some { lock := sys.lock.read_lock_wake.1
             phase := if sys.lock.read_lock_wake.2 then sys.phase.set t .reading else sys.phase }
    else none
  | .read_unlock =>
    if sys.phase[t]? = some .reading then
      some { lock := sys.lock.read_unlock.1, phase := sys.phase.set t .idle }
    else none
  | .write_lock =>
    if sys.phase[t]? = some .idle then
      some { lock := sys.lock.write_lock.1
             phase := sys.phase.set t (if sys.lock.write_lock.2 then .writing else .write_waiting) }
    else none
  | .write_lock_wake =>
    if sys.phase[t]? = some .write_waiting then
      some { lock := sys.lock.write_lock_wake.1
             phase := if sys.lock.write_lock_wake.2 then sys.phase.set t .writing else sys.phase }
    else none
  | .write_unlock =>
    if sys.phase[t]? = some .writing then
      some { lock := sys.lock.write_unlock.1, phase := sys.phase.set t .idle }
    else none

/-- States reachable from an initialised lock by sections of its threads. -/
inductive Reachable : LockSystem → Prop where
  | init (n : Nat) : Reachable (LockSystem.init n)
  | step {sys sys1 : LockSystem} (t : Nat) (st : Step) :
    Reachable sys → sys.step t st = some sys1 → Reachable sys1

/-- The counters agree with the thread phases, and at most one writer is
active, with no reader beside it. -/
def LockInv (sys : LockSystem) : Prop :=
  sys.lock._nread = sys.phase.count .reading ∧
    sys.lock._nread_waiters = sys.phase.count .read_waiting ∧
    sys.lock._nwrite = sys.phase.count .writing ∧
    sys.lock._nwrite_waiters = sys.phase.count .write_waiting ∧
    sys.lock._nwrite ≤ 1 ∧ (sys.lock._nwrite = 1 → sys.lock._nread = 0)

/-- A lock held by reader 0, with writer 1 registered as waiting and
thread 2 idle. -/
def contended : LockSystem :=
  { lock := { _nread := 1, _nread_waiters := 0, _nwrite := 0, _nwrite_waiters := 1 }
    phase := [.reading, .write_waiting, .idle] }

/-! ### Operations and what a caller observes -/

/-- The public operations of `ShmRingBuffer`. -/
inductive Op (T : Type) where
  | get_capacity
  | get_begin
  | get_end
  | clear
  | push_back (e : T)
  | dump_front
  | iterate (fuel : Nat)
  | unparse (fuel : Nat) (render : T → String)

/-- What an operation hands back to its caller. -/
inductive Obs (T : Type) where
  | done
  | index (n : Nat)
  | record (r : T)
  | records (rs : Option (List T))
  | text (t : Option String)
deriving DecidableEq

/-- One operation on the segment: the segment afterwards and the result.
`ret` is the content of the uninitialised local of this call, which only
`dump_front` has. -/
def exec (s : ShmRingBuffer T) (ret : T) : Op T → ShmRingBuffer T × Obs T
  | .get_capacity => (s, .index (capacity s))
  | .get_begin => (s, .index (ShmRingBuffer.begin s))
  | .get_end => (s, .index (ShmRingBuffer.end s))
  | .clear => (clear s, .done)
  | .push_back e => (push_back s e, .done)
  | .dump_front => ((dump_front s ret).2, .record (dump_front s ret).1)
  | .iterate fuel => (s, .records (iterate s fuel))
  | .unparse fuel render => (s, .text (unparse s fuel render))

/-- The results of a sequence of operations, in call order; `rets k` is the
content of the uninitialised local at the `k`-th call. -/
def run : List (Op T) → (Nat → T) → ShmRingBuffer T → List (Obs T)
  | [], _, _ => []
  | op :: ops, rets, s =>
    (exec s (rets 0) op).2 :: run ops (fun k => rets (k + 1)) (exec s (rets 0) op).1

/-- Two segments look alike to a caller: same header, same resident
records. -/
def Alike (s t : ShmRingBuffer T) : Prop :=
  s._hdr = t._hdr ∧ contents s = contents t

/-! ### Two processes on one segment -/

/-- One turn of a schedule: process A pushes a record, or process B calls
`dump_front`, its uninitialised local holding `ret`.  Each call is one atomic
step (it holds the write lock). -/
inductive Turn (T : Type) where
  | A (x : T)
  | B (ret : T)

/-- The records process A pushes during a schedule, in order. -/
def pushed : List (Turn T) → List T
  | [] => []
  | .A x :: sch => x :: pushed sch
  | .B _ :: sch => pushed sch

/-- The segment at the end of a schedule. -/
def final : List (Turn T) → ShmRingBuffer T → ShmRingBuffer T
  | [], s => s
  | .A x :: sch, s => final sch (push_back s x)
  | .B ret :: sch, s => final sch (dump_front s ret).2

/-- Every value returned to process B, in call order. -/
def returned : List (Turn T) → ShmRingBuffer T → List T
  | [], _ => []
  | .A x :: sch, s => returned sch (push_back s x)
  | .B ret :: sch, s => (dump_front s ret).1 :: returned sch (dump_front s ret).2

/-- The values returned to process B by the calls that found the buffer
non-empty (`_begin != _end`), in call order. -/
def taken : List (Turn T) → ShmRingBuffer T → List T
  | [], _ => []
  | .A x :: sch, s => taken sch (push_back s x)
  | .B ret :: sch, s =>
    if s._hdr._begin ≠ s._hdr._end then
      (dump_front s ret).1 :: taken sch (dump_front s ret).2
    else taken sch (dump_front s ret).2

/-- The number of `push_back` calls of a schedule that found the buffer full
(`_end` met `_begin`) and advanced `_begin` over the oldest record. -/
def dropped : List (Turn T) → ShmRingBuffer T → Nat
  | [], _ => 0
  | .A x :: sch, s =>
    (if next_index_machine s._hdr._end s._hdr._capacity = s._hdr._begin then 1 else 0)
      + dropped sch (push_back s x)
  | .B ret :: sch, s => dropped sch (dump_front s ret).2

/-! ### Attaching: `ShmRingBuffer::init` -/

/-- What a call of `init` leaves behind: its return value, the messages it
passed to `perror`, and the mapped segment the handle points into (`none`
when `_hdr`, `_lock`, `_v` stay `NULL`). -/
structure InitResult (T : Type) where
  ret : Bool
  errors : List String
  attached : Option (ShmRingBuffer T)

/-- Method `ShmRingBuffer::init(cap, master, path)`.  The outcomes of
`shm_open`, `ftruncate` and `mmap` are inputs (`true` for success), `seg` is
the content of the shared memory object as it gets mapped.  `ftruncate` is
called by the owner only; its failure is reported through `perror` and the
function carries on. -/
def init (cap : Nat) (master : Bool) (shm_open_ok ftruncate_ok mmap_ok : Bool)
    (seg : ShmRingBuffer T) : InitResult T :=
  if !shm_open_ok then
    { ret := false, errors := ["shm_open failed"], attached := none }
  else
    let errs : List String :=
      if master && !ftruncate_ok then ["ftruncate failed"] else []
    if !mmap_ok then
      { ret := false, errors := errs ++ ["mmap failed"], attached := none }
    else if master then
      { ret := true, errors := errs, attached := some (init_master cap seg) }
    else
      { ret := true, errors := errs, attached := some seg }

/-! ### Whom a notification wakes -/

/-- The number of threads released from condition variable `c`, on which
`waiting` threads are blocked, by a notification: `pthread_cond_signal`
releases one blocked thread, `pthread_cond_broadcast` all of them, and a
call on the other condition variable none. -/
def Notify.woken (n : Notify) (c : Cond) (waiting : Nat) : Nat :=
  match n with
  | .nothing => 0
  | .signal c1 => if c1 = c then min 1 waiting else 0
  | .broadcast c1 => if c1 = c then waiting else 0

/-! ### The single-process `RingBuffer` of `ring_buffer.hh`

The vector `_v` is a list; an access outside it, a read of `front()` or
`back()` of an empty vector, and a failed `assert` have no defined result and
are `none`.  `_v.resize(_cap)` on the empty vector fills it with
default-constructed elements. -/

/-- The members of `class RingBuffer`. -/
structure RingBuffer (T : Type) where
  _v : List T
  _cap : Nat
  _size : Nat
  _head : Nat
  _tail : Nat
deriving DecidableEq, Repr

/-- Constructor `RingBuffer(cap)`. -/
def RingBuffer.create (cap : Nat) : RingBuffer T :=
  { _v := [], _cap := cap, _size := 0, _head := 0, _tail := 0 }

/-- Query `capacity()`. -/
def RingBuffer.capacity (r : RingBuffer T) : Nat := r._cap

/-- Query `size()`. -/
def RingBuffer.size (r : RingBuffer T) : Nat := r._size

/-- Query `empty()`. -/
def RingBuffer.empty (r : RingBuffer T) : Bool := 0 == r._size

/-- Query `full()`. -/
def RingBuffer.full (r : RingBuffer T) : Bool := r._cap == r._size

/-- Method `operator[](i)`: the `i`-th element from the head. -/
def RingBuffer.index (r : RingBuffer T) (i : Nat) : Option T :=
  if r.empty || r._v.isEmpty then r._v.head?
  else r._v[(r._head + i) % r._cap]?

/-- Method `front()`. -/
def RingBuffer.front (r : RingBuffer T) : Option T :=
  if r.empty || r._v.isEmpty then r._v.head?
  else r._v[r._head]?

/-- Method `back()`, the non-const overload. -/
def RingBuffer.back (r : RingBuffer T) : Option T :=
  if r.empty || r._v.isEmpty then r._v.getLast?
  else r._v[r._tail]?

/-- Method `back() const`: as `back()`, except that on an empty buffer it
returns `_v.front()`. -/
def RingBuffer.back_const (r : RingBuffer T) : Option T :=
  if r.empty || r._v.isEmpty then r._v.head?
  else r._v[r._tail]?

/-- Method `push_back(t)`. -/
def RingBuffer.push_back [Inhabited T] (r : RingBuffer T) (t : T) : Option (RingBuffer T) :=
  if r._cap = 0 then none
  else
    let v := if r._v.isEmpty then List.replicate r._cap default else r._v
    if r._tail < v.length then
      if r.full then
        some { r with
          _v := v.set r._tail t
          _tail := (r._tail + 1) % r._cap
          _head := (r._head + 1) % r._cap }
      else
        some { r with
          _v := v.set r._tail t
          _tail := (r._tail + 1) % r._cap
          _size := r._size + 1 }
    else none

/-- Method `pop_front()`. -/
def RingBuffer.pop_front (r : RingBuffer T) : RingBuffer T :=
  if !r.empty then { r with _head := (r._head + 1) % r._cap, _size := r._size - 1 }
  else r

/-- Method `clear()`. -/
def RingBuffer.clear (r : RingBuffer T) : RingBuffer T :=
  { r with _v := [], _head := 0, _tail := 0, _size := 0 }

/-- The copy loops of `resize`: `vec.push_back(operator[](i))` for `n`
consecutive values of `i`, from `i` on. -/
def RingBuffer.copy_out (r : RingBuffer T) : Nat → Nat → Option (List T)
  | 0, _ => some []
  | n + 1, i =>
    match r.index i with
    | none => none
    | some x => (RingBuffer.copy_out r n (i + 1)).map (fun rest => x :: rest)

/-- Method `resize(cap)`.  An empty buffer is cleared; with `size() <= cap`
the elements `0 .. size()-1` are copied and `_tail = size()`; otherwise the
loop runs `i` from `size()-cap` to `size()` inclusive, `cap + 1` copies, and
`_tail = 0`, `_size = cap`.  At the end `_v` is assigned the copy `vec`, which
undoes the `_v.resize(cap)` before it. -/
def RingBuffer.resize (r : RingBuffer T) (cap : Nat) : Option (RingBuffer T) :=
  if cap = 0 then none
  else if r.empty then
    some { _v := [], _cap := cap, _size := 0, _head := 0, _tail := 0 }
  else if r.size ≤ cap then
    (r.copy_out r.size 0).map
      (fun vec => { _v := vec, _cap := cap, _size := r._size, _head := 0, _tail := r.size })
  else
    (r.copy_out (cap + 1) (r.size - cap)).map
      (fun vec => { _v := vec, _cap := cap, _size := cap, _head := 0, _tail := 0 })

/-- The calls that change a `RingBuffer`. -/
inductive RingCall (T : Type) where
  | push_back (t : T)
  | pop_front
  | clear
  | resize (cap : Nat)
deriving DecidableEq, Repr

/-- One call. -/
def RingBuffer.call [Inhabited T] (r : RingBuffer T) : RingCall T → Option (RingBuffer T)
  | .push_back t => r.push_back t
  | .pop_front => some r.pop_front
  | .clear => some r.clear
  | .resize cap => r.resize cap

/-- A sequence of calls, first to last. -/
def RingBuffer.calls [Inhabited T] : RingBuffer T → List (RingCall T) → Option (RingBuffer T)
  | r, [] => some r
  | r, c :: cs =>
    match r.call c with
    | none => none
    | some r1 => RingBuffer.calls r1 cs

/-- Pushing a sequence of values, first to last. -/
def RingBuffer.push_all [Inhabited T] (r : RingBuffer T) (xs : List T) : Option (RingBuffer T) :=
  r.calls (xs.map RingCall.push_back)

/-- States reached from a fresh `RingBuffer(cap)`, `cap ≥ 1`, by `push_back`
and `pop_front`. -/
inductive RingBuffer.Reached [Inhabited T] : RingBuffer T → Prop where
  | create (cap : Nat) : 1 ≤ cap → RingBuffer.Reached (RingBuffer.create cap)
  | push_back {r r1 : RingBuffer T} (t : T) :
    RingBuffer.Reached r → r.push_back t = some r1 → RingBuffer.Reached r1
  | pop_front {r : RingBuffer T} : RingBuffer.Reached r → RingBuffer.Reached r.pop_front

/-- The elements a buffer holds, head first, read off the vector. -/
def RingBuffer.toList [Inhabited T] (r : RingBuffer T) : List T :=
  window (fun j => r._v.getD j default) r._cap r._head r._size

/-- Well-formed state: what `push_back` and `pop_front` maintain from a fresh
buffer. -/
def RingBuffer.Wf (r : RingBuffer T) : Prop :=
  0 < r._cap ∧ r._head < r._cap ∧ r._size ≤ r._cap ∧
    r._tail = (r._head + r._size) % r._cap ∧
    (r._v.length = r._cap ∨ (r._v = [] ∧ r._size = 0 ∧ r._head = 0))

/-- The representation invariant of C20. -/
def RingBuffer.RepInv (r : RingBuffer T) : Prop :=
  r._size ≤ r._cap ∧ r._head < r._cap ∧ r._tail < r._cap ∧
    r._tail = (r._head + r._size) % r._cap ∧
    (r._v = [] ∨ r._v.length = r._cap)

instance [DecidableEq T] (r : RingBuffer T) : Decidable r.RepInv := by
  unfold RingBuffer.RepInv
  infer_instance

/-- A buffer of capacity 10 holding `4 .. 12`: a fresh `RingBuffer(10)` after
pushing `0 .. 12` and one `pop_front`. -/
def ring_4_to_12 : RingBuffer Nat :=
  { _v := [10, 11, 12, 3, 4, 5, 6, 7, 8, 9], _cap := 10, _size := 9, _head := 4, _tail := 3 }

/-- The calls of `main` in `ring_buffer_test.cc` on `RingBuffer<int> buf(8)`,
up to and including `buf.resize(10)`. -/
def test_calls : List (RingCall Nat) :=
  [.push_back 0, .push_back 1, .push_back 2, .push_back 3, .push_back 4, .push_back 5,
    .push_back 6, .push_back 7, .push_back 8, .push_back 9, .pop_front, .pop_front,
    .push_back 10, .push_back 11, .resize 10]

/-! ### Example segments -/

/-- A zero-filled segment with zero-filled lock state, as a new shared
memory object is mapped. -/
def blank : ShmRingBuffer Nat :=
  { _hdr := { _capacity := 0, _begin := 0, _end := 0 }
    _lock := ReadWriteLock.init
    _v := fun _ => 0 }

/-- A segment of capacity 4 whose window wraps: `_begin = 3`, `_end = 1`,
slots `10, 11, 12, 13`. -/
def wrapped : ShmRingBuffer Nat :=
  { _hdr := { _capacity := 4, _begin := 3, _end := 1 }
    _lock := ReadWriteLock.init
    _v := fun i => 10 + i.toNat }

/-- A segment of capacity `2^31 + 1` with `_begin = 0` and `_end = INT_MAX`,
both in `[0, _capacity)`. -/
def at_int_max : ShmRingBuffer Nat :=
  { _hdr := { _capacity := 2147483649, _begin := 0, _end := 2147483647 }
    _lock := ReadWriteLock.init
    _v := fun _ => 0 }

/-- A segment of capacity `2^32` with `_begin = 0` and `_end = INT_MAX`,
both in `[0, _capacity)`. -/
def at_int_max_wide : ShmRingBuffer Nat :=
  { _hdr := { _capacity := 4294967296, _begin := 0, _end := 2147483647 }
    _lock := ReadWriteLock.init
    _v := fun _ => 0 }

/-- A non-empty segment of capacity `2^31 + 1` with `_begin = INT_MAX` and
`_end = 7`, both in `[0, _capacity)`; slot `i` holds the number `i`. -/
def begin_at_int_max : ShmRingBuffer Int :=
  { _hdr := { _capacity := 2147483649, _begin := 2147483647, _end := 7 }
    _lock := ReadWriteLock.init
    _v := fun i => i }

/-- For indices below a capacity of at most `INT_MAX` the machine evaluation
of `(i + 1) % _capacity` is the exact successor modulo the capacity. -/
theorem next_index_machine_eq (i cap : Nat) (hi : i < cap) (hcap : cap ≤ INT_MAX) :
    next_index_machine (i : Int) cap = (((i + 1) % cap : Nat) : Int) := by
  unfold INT_MAX at hcap
  have h1 : to_int ((i : Int) + 1) = (i : Int) + 1 := by unfold to_int; omega
  have h2 : to_size_t ((i : Int) + 1) = i + 1 := by unfold to_size_t; omega
  have hr : (i + 1) % cap < cap := Nat.mod_lt _ (by omega)
  unfold next_index_machine
  rw [h1, h2]
  unfold to_int
  omega

theorem mod_two_range {x c : Nat} (h : x < 2 * c) :
    x % c = if x < c then x else x - c := by
  split_ifs with hx
  · exact Nat.mod_eq_of_lt hx
  · have h1 : x % c = (x - c) % c := Nat.mod_eq_sub_mod (by omega)
    rw [h1]
    exact Nat.mod_eq_of_lt (by omega)

theorem ring_reach {b e c j : Nat} (hb : b < c) (he : e < c) (hj : j < c) :
    (b + j) % c = e ↔ j = (e + c - b) % c := by
  rw [mod_two_range (show b + j < 2 * c by omega),
    mod_two_range (show e + c - b < 2 * c by omega)]
  split_ifs <;> omega

theorem window_succ_left (v : Nat → T) (c i k : Nat) :
    window v c i (k + 1) = v (i % c) :: window v c ((i + 1) % c) k := by
  unfold window
  rw [List.range_succ_eq_map, List.map_cons, List.map_map]
  congr 1
  apply List.map_congr_left
  intro j _
  simp only [Function.comp, Nat.mod_add_mod]
  congr 2
  omega

theorem window_succ_right (v : Nat → T) (c i k : Nat) :
    window v c i (k + 1) = window v c i k ++ [v ((i + k) % c)] := by
  unfold window
  rw [List.range_succ, List.map_append]
  rfl

theorem window_length (v : Nat → T) (c i k : Nat) : (window v c i k).length = k := by
  simp [window]

theorem window_congr {v w : Nat → T} {c i k : Nat}
    (h : ∀ j, j < k → v ((i + j) % c) = w ((i + j) % c)) :
    window v c i k = window w c i k := by
  unfold window
  apply List.map_congr_left
  intro j hj
  exact h j (List.mem_range.mp hj)

theorem drop_last_append (n : Nat) (l r : List T) :
    (l.drop (l.length - n) ++ r).drop ((l.drop (l.length - n) ++ r).length - n) =
      (l ++ r).drop ((l ++ r).length - n) := by
  have hd : l.length - n ≤ l.length := Nat.sub_le _ _
  rw [← List.drop_append_of_le_length hd, List.drop_drop]
  congr 1
  simp only [List.length_drop, List.length_append]
  omega

theorem ring_index_inj {b c x y : Nat} (hb : b < c) (hx : x < c) (hy : y < c)
    (h : (b + x) % c = (b + y) % c) : x = y := by
  have hc : 0 < c := by omega
  have he : (b + y) % c < c := Nat.mod_lt _ hc
  rw [(ring_reach hb he hx).mp h, ← (ring_reach hb he hy).mp rfl]


/-! ### The buffer with indices in range and a capacity of at most `INT_MAX` -/

theorem next_index_inRange (i : Int) (cap : Nat) (h0 : 0 ≤ i) (h1 : i < (cap : Int))
    (hm : cap ≤ INT_MAX) :
    next_index_machine i cap = (((i.toNat + 1) % cap : Nat) : Int) := by
  have := next_index_machine_eq i.toNat cap (by omega) hm
  rwa [Int.toNat_of_nonneg h0] at this

theorem resident_lt (s : ShmRingBuffer T) (h : InRange s) :
    resident s < s._hdr._capacity :=
  Nat.mod_lt _ (by have := h.1; omega)

theorem contents_length (s : ShmRingBuffer T) : (contents s).length = resident s :=
  window_length _ _ _ _

theorem contents_empty (s : ShmRingBuffer T) (he : s._hdr._begin = s._hdr._end) :
    contents s = [] := by
  unfold contents resident
  rw [he, Nat.add_sub_cancel_left, Nat.mod_self]
  rfl

theorem resident_reach (s : ShmRingBuffer T) (h : InRange s) :
    (s._hdr._begin.toNat + resident s) % s._hdr._capacity = s._hdr._end.toNat := by
  have hk := resident_lt s h
  obtain ⟨⟨_, _⟩, ⟨_, _⟩⟩ := h
  exact (ring_reach (by omega) (by omega) hk).mpr rfl

theorem resident_first (s : ShmRingBuffer T) (h : InRange s) (j : Nat) (hj : j < resident s) :
    (s._hdr._begin.toNat + j) % s._hdr._capacity ≠ s._hdr._end.toNat := by
  intro heq
  have hk := resident_lt s h
  obtain ⟨⟨_, _⟩, ⟨_, _⟩⟩ := h
  have := (ring_reach (b := s._hdr._begin.toNat) (e := s._hdr._end.toNat)
    (c := s._hdr._capacity) (j := j) (by omega) (by omega) (by omega)).mp heq
  unfold resident at hj
  omega

/-! ### The loop of `unparse` -/

theorem unparse_loop_mono (s : ShmRingBuffer T) {fuel : Nat} {i : Int} {l : List T}
    (h : unparse_loop s fuel i = some l) (extra : Nat) :
    unparse_loop s (fuel + extra) i = some l := by
  induction fuel generalizing i l with
  | zero => simp [unparse_loop] at h
  | succ n ih =>
    rw [Nat.add_right_comm]
    simp only [unparse_loop] at h ⊢
    split_ifs at h ⊢ with hi
    · exact h
    · cases hrec : unparse_loop s n (next_index_machine i s._hdr._capacity) with
      | none => simp [hrec] at h
      | some l1 =>
        rw [hrec] at h
        rw [ih hrec]
        exact h

theorem unparse_loop_window (s : ShmRingBuffer T) (hm : s._hdr._capacity ≤ INT_MAX)
    (he : 0 ≤ s._hdr._end) (k : Nat) :
    ∀ fuel (i : Nat), i < s._hdr._capacity →
      (i + k) % s._hdr._capacity = s._hdr._end.toNat →
      (∀ j, j < k → (i + j) % s._hdr._capacity ≠ s._hdr._end.toNat) → k < fuel →
      unparse_loop s fuel (i : Int)
        = some (window (fun n => s._v (n : Int)) s._hdr._capacity i k) := by
  induction k with
  | zero =>
    intro fuel i hi heq _ hf
    obtain ⟨n, rfl⟩ : ∃ n, fuel = n + 1 := ⟨fuel - 1, by omega⟩
    have h1 : i = s._hdr._end.toNat := by rwa [Nat.add_zero, Nat.mod_eq_of_lt hi] at heq
    have h2 : (i : Int) = s._hdr._end := by rw [h1]; exact Int.toNat_of_nonneg he
    simp [unparse_loop, h2, window]
  | succ k ih =>
    intro fuel i hi heq hne hf
    obtain ⟨n, rfl⟩ : ∃ n, fuel = n + 1 := ⟨fuel - 1, by omega⟩
    have h0 : (i : Int) ≠ s._hdr._end := by
      intro hc
      have := hne 0 (by omega)
      rw [Nat.add_zero, Nat.mod_eq_of_lt hi] at this
      apply this
      omega
    have hc : 0 < s._hdr._capacity := by omega
    have hnext := next_index_machine_eq i s._hdr._capacity hi hm
    have hrec := ih n ((i + 1) % s._hdr._capacity) (Nat.mod_lt _ hc)
      (by rw [Nat.mod_add_mod, show i + 1 + k = i + (k + 1) by omega]; exact heq)
      (by
        intro j hj
        rw [Nat.mod_add_mod]
        have := hne (j + 1) (by omega)
        rwa [show i + 1 + j = i + (j + 1) by omega])
      (by omega)
    simp only [unparse_loop, if_neg h0, hnext, hrec, Option.map_some']
    rw [window_succ_left, Nat.mod_eq_of_lt hi]

/-- With indices in range, a capacity of at most `INT_MAX` and fuel of at
least the capacity, the iteration terminates and yields the `resident s`
records from `_begin` on. -/
theorem iterate_eq_window (s : ShmRingBuffer T) (h : InRange s)
    (hm : s._hdr._capacity ≤ INT_MAX) (fuel : Nat) (hf : s._hdr._capacity ≤ fuel) :
    iterate s fuel = some (contents s) := by
  have hk := resident_lt s h
  have hreach := resident_reach s h
  have hfirst := resident_first s h
  obtain ⟨⟨hb0, hb1⟩, ⟨he0, he1⟩⟩ := h
  have hloop := unparse_loop_window s hm he0 (resident s) fuel s._hdr._begin.toNat
    (by omega) hreach hfirst (by omega)
  rw [Int.toNat_of_nonneg hb0] at hloop
  unfold iterate
  split_ifs with hbe
  · rw [contents_empty s hbe]
  · exact hloop

/-- Whatever fuel made the iteration return, it returned the window of
resident records. -/
theorem iterate_some (s : ShmRingBuffer T) (h : InRange s) (hm : s._hdr._capacity ≤ INT_MAX)
    {fuel : Nat} {l : List T} (hl : iterate s fuel = some l) : l = contents s := by
  have h1 : iterate s (fuel + s._hdr._capacity) = some l := by
    unfold iterate at hl ⊢
    split_ifs at hl ⊢ with hbe
    · exact hl
    · exact unparse_loop_mono s hl _
  rw [iterate_eq_window s h hm _ (by omega)] at h1
  exact (Option.some.inj h1).symm

/-! ### Effect of `push_back` on the resident records -/

theorem push_back_capacity (s : ShmRingBuffer T) (x : T) :
    (push_back s x)._hdr._capacity = s._hdr._capacity := by
  simp only [push_back]
  split_ifs <;> rfl

theorem push_back_slots (s : ShmRingBuffer T) (x : T) :
    (push_back s x)._v = Function.update s._v s._hdr._end x := by
  simp only [push_back]
  split_ifs <;> rfl

theorem push_back_end (s : ShmRingBuffer T) (x : T) :
    (push_back s x)._hdr._end = next_index_machine s._hdr._end s._hdr._capacity := by
  simp only [push_back]
  split_ifs <;> rfl

theorem push_back_begin_room (s : ShmRingBuffer T) (x : T)
    (hne : ¬ next_index_machine s._hdr._end s._hdr._capacity = s._hdr._begin) :
    (push_back s x)._hdr._begin = s._hdr._begin := by
  simp only [push_back, if_neg hne]

theorem push_back_begin_full (s : ShmRingBuffer T) (x : T)
    (heq : next_index_machine s._hdr._end s._hdr._capacity = s._hdr._begin) :
    (push_back s x)._hdr._begin = next_index_machine s._hdr._begin s._hdr._capacity := by
  simp only [push_back, if_pos heq]

theorem push_back_inRange (s : ShmRingBuffer T) (x : T) (h : InRange s)
    (hm : s._hdr._capacity ≤ INT_MAX) : InRange (push_back s x) := by
  obtain ⟨⟨hb0, hb1⟩, ⟨he0, he1⟩⟩ := h
  have hc : 0 < s._hdr._capacity := by omega
  have hn1 := next_index_inRange _ _ he0 he1 hm
  have hn2 := next_index_inRange _ _ hb0 hb1 hm
  have hl1 := Nat.mod_lt (s._hdr._end.toNat + 1) hc
  have hl2 := Nat.mod_lt (s._hdr._begin.toNat + 1) hc
  unfold InRange
  rw [push_back_capacity, push_back_end, hn1]
  by_cases hfull : next_index_machine s._hdr._end s._hdr._capacity = s._hdr._begin
  · rw [push_back_begin_full s x hfull, hn2]
    omega
  · rw [push_back_begin_room s x hfull]
    omega

theorem push_back_full_iff (s : ShmRingBuffer T) (h : InRange s)
    (hm : s._hdr._capacity ≤ INT_MAX) :
    next_index_machine s._hdr._end s._hdr._capacity = s._hdr._begin ↔
      resident s + 1 = s._hdr._capacity := by
  obtain ⟨⟨hb0, hb1⟩, ⟨he0, he1⟩⟩ := h
  rw [next_index_inRange _ _ he0 he1 hm]
  have hcast : ((((s._hdr._end.toNat + 1) % s._hdr._capacity : Nat) : Int) = s._hdr._begin) ↔
      (s._hdr._end.toNat + 1) % s._hdr._capacity = s._hdr._begin.toNat := by
    constructor <;> intro h <;> omega
  rw [hcast]
  unfold resident
  rw [mod_two_range (show s._hdr._end.toNat + 1 < 2 * s._hdr._capacity by omega),
    mod_two_range (show s._hdr._end.toNat + s._hdr._capacity - s._hdr._begin.toNat
      < 2 * s._hdr._capacity by omega)]
  split_ifs <;> omega

theorem contents_unfold (s : ShmRingBuffer T) :
    contents s = window (fun n => s._v (n : Int)) s._hdr._capacity s._hdr._begin.toNat
      ((s._hdr._end.toNat + s._hdr._capacity - s._hdr._begin.toNat) % s._hdr._capacity) :=
  rfl

theorem contents_resident (s : ShmRingBuffer T) :
    contents s = window (fun n => s._v (n : Int)) s._hdr._capacity s._hdr._begin.toNat
      (resident s) :=
  rfl

/-- Room left: `_begin` stays, the new record is appended. -/
theorem push_back_room (s : ShmRingBuffer T) (x : T) (h : InRange s)
    (hm : s._hdr._capacity ≤ INT_MAX) (hk : resident s + 1 < s._hdr._capacity) :
    (push_back s x)._hdr._begin = s._hdr._begin ∧
      contents (push_back s x) = contents s ++ [x] := by
  have hne : ¬ next_index_machine s._hdr._end s._hdr._capacity = s._hdr._begin := by
    rw [push_back_full_iff s h hm]; omega
  have hreach := resident_reach s h
  have hfirst := resident_first s h
  obtain ⟨⟨hb0, hb1⟩, ⟨he0, he1⟩⟩ := h
  have hres : ((s._hdr._end.toNat + 1) % s._hdr._capacity + s._hdr._capacity
      - s._hdr._begin.toNat) % s._hdr._capacity = resident s + 1 := by
    unfold resident at hk ⊢
    rw [mod_two_range (show s._hdr._end.toNat + s._hdr._capacity - s._hdr._begin.toNat
      < 2 * s._hdr._capacity by omega)] at hk ⊢
    rw [mod_two_range (show s._hdr._end.toNat + 1 < 2 * s._hdr._capacity by omega)]
    split_ifs at hk ⊢ with h1 h2
    all_goals first
      | omega
      | (rw [mod_two_range (by omega)]; split_ifs <;> omega)
  refine ⟨push_back_begin_room s x hne, ?_⟩
  rw [contents_unfold (push_back s x), contents_resident s]
  rw [push_back_capacity, push_back_begin_room s x hne, push_back_end,
    next_index_inRange _ _ he0 he1 hm, push_back_slots, Int.toNat_ofNat, hres,
    window_succ_right, hreach]
  have hcast : ((s._hdr._end.toNat : Nat) : Int) = s._hdr._end := Int.toNat_of_nonneg he0
  rw [Function.update_apply, if_pos hcast]
  congr 1
  apply window_congr
  intro j hj
  have := hfirst j hj
  rw [Function.update_noteq (by omega)]

/-- Buffer full (`capacity - 1` resident records): `_begin` advances and the
oldest record drops out. -/
theorem push_back_full (s : ShmRingBuffer T) (x : T) (h : InRange s)
    (hm : s._hdr._capacity ≤ INT_MAX) (hk : resident s + 1 = s._hdr._capacity) :
    (push_back s x)._hdr._begin
        = (((s._hdr._begin.toNat + 1) % s._hdr._capacity : Nat) : Int) ∧
      contents (push_back s x) = (contents s ++ [x]).drop 1 := by
  have hfull := (push_back_full_iff s h hm).mpr hk
  have hreach := resident_reach s h
  have hfirst := resident_first s h
  obtain ⟨⟨hb0, hb1⟩, ⟨he0, he1⟩⟩ := h
  have hbeg : (push_back s x)._hdr._begin
      = (((s._hdr._begin.toNat + 1) % s._hdr._capacity : Nat) : Int) := by
    rw [push_back_begin_full s x hfull, next_index_inRange _ _ hb0 hb1 hm]
  have hend : (push_back s x)._hdr._end = s._hdr._begin := by
    rw [push_back_end, hfull]
  have hres : (s._hdr._begin.toNat + s._hdr._capacity
      - (s._hdr._begin.toNat + 1) % s._hdr._capacity) % s._hdr._capacity = resident s := by
    rw [mod_two_range (show s._hdr._begin.toNat + 1 < 2 * s._hdr._capacity by omega)]
    split_ifs with h1
    · rw [mod_two_range (by omega)]; split_ifs <;> omega
    · rw [mod_two_range (by omega)]; split_ifs <;> omega
  refine ⟨hbeg, ?_⟩
  rw [contents_unfold (push_back s x), contents_resident s]
  rw [push_back_capacity, hbeg, hend, push_back_slots, Int.toNat_ofNat, hres]
  have hcast : ((s._hdr._end.toNat : Nat) : Int) = s._hdr._end := Int.toNat_of_nonneg he0
  cases hm1 : resident s with
  | zero => simp [window]
  | succ m =>
    rw [hm1] at hreach
    rw [window_succ_left (fun n => s._v (n : Int)), List.cons_append, List.drop_one,
      List.tail_cons, window_succ_right, Nat.mod_add_mod,
      show s._hdr._begin.toNat + 1 + m = s._hdr._begin.toNat + (m + 1) by omega, hreach]
    rw [Function.update_apply, if_pos hcast]
    congr 1
    apply window_congr
    intro j hj
    have := hfirst (j + 1) (by omega)
    rw [Nat.mod_add_mod,
      show s._hdr._begin.toNat + 1 + j = s._hdr._begin.toNat + (j + 1) by omega,
      Function.update_noteq (by omega)]

theorem contents_push_back (s : ShmRingBuffer T) (x : T) (h : InRange s)
    (hm : s._hdr._capacity ≤ INT_MAX) :
    contents (push_back s x) =
      (contents s ++ [x]).drop ((contents s ++ [x]).length - (s._hdr._capacity - 1)) := by
  have hk := resident_lt s h
  rw [List.length_append, contents_length, List.length_singleton]
  rcases Nat.lt_or_ge (resident s + 1) s._hdr._capacity with hlt | hge
  · rw [(push_back_room s x h hm hlt).2,
      show resident s + 1 - (s._hdr._capacity - 1) = 0 by omega, List.drop_zero]
  · rw [(push_back_full s x h hm (by omega)).2,
      show resident s + 1 - (s._hdr._capacity - 1) = 1 by omega]

/-! ### Effect of `dump_front` -/

theorem dump_front_empty (s : ShmRingBuffer T) (ret : T)
    (he : s._hdr._begin = s._hdr._end) : dump_front s ret = (ret, s) := by
  unfold dump_front
  rw [if_neg (by simpa using he)]

theorem dump_front_nonempty (s : ShmRingBuffer T) (ret : T) (h : InRange s)
    (hm : s._hdr._capacity ≤ INT_MAX) (hne : s._hdr._begin ≠ s._hdr._end) :
    InRange (dump_front s ret).2 ∧
      (dump_front s ret).2._hdr._capacity = s._hdr._capacity ∧
      (dump_front s ret).1 = s._v s._hdr._begin ∧
      contents s = (dump_front s ret).1 :: contents (dump_front s ret).2 := by
  have hk := resident_lt s h
  have hreach := resident_reach s h
  obtain ⟨⟨hb0, hb1⟩, ⟨he0, he1⟩⟩ := h
  have hc : 0 < s._hdr._capacity := by omega
  have hpos : resident s ≠ 0 := by
    intro h0
    rw [h0, Nat.add_zero, Nat.mod_eq_of_lt (by omega)] at hreach
    apply hne
    omega
  obtain ⟨m, hm1⟩ : ∃ m, resident s = m + 1 := ⟨resident s - 1, by omega⟩
  have hres : (s._hdr._end.toNat + s._hdr._capacity
      - (s._hdr._begin.toNat + 1) % s._hdr._capacity) % s._hdr._capacity = m := by
    unfold resident at hm1
    rw [mod_two_range (show s._hdr._end.toNat + s._hdr._capacity - s._hdr._begin.toNat
      < 2 * s._hdr._capacity by omega)] at hm1
    rw [mod_two_range (show s._hdr._begin.toNat + 1 < 2 * s._hdr._capacity by omega)]
    split_ifs at hm1 ⊢ with h1 h2
    all_goals (rw [mod_two_range (by omega)]; split_ifs <;> omega)
  have hl := Nat.mod_lt (s._hdr._begin.toNat + 1) hc
  have hn := next_index_inRange _ _ hb0 hb1 hm
  unfold contents
  rw [hm1]
  unfold resident InRange
  simp only [dump_front, if_pos hne, hn, Int.toNat_ofNat]
  refine ⟨⟨⟨by omega, by omega⟩, ⟨he0, he1⟩⟩, trivial, trivial, ?_⟩
  rw [hres, window_succ_left, Nat.mod_eq_of_lt (by omega)]
  simp only [Int.toNat_of_nonneg hb0]

theorem push_all_capacity (xs : List T) (s : ShmRingBuffer T) :
    (push_all s xs)._hdr._capacity = s._hdr._capacity := by
  induction xs generalizing s with
  | nil => rfl
  | cons x xs ih =>
    show (push_all (push_back s x) xs)._hdr._capacity = _
    rw [ih, push_back_capacity]

theorem push_all_inRange (xs : List T) (s : ShmRingBuffer T) (h : InRange s)
    (hm : s._hdr._capacity ≤ INT_MAX) : InRange (push_all s xs) := by
  induction xs generalizing s with
  | nil => exact h
  | cons x xs ih =>
    exact ih (push_back s x) (push_back_inRange s x h hm) (by rw [push_back_capacity]; exact hm)

theorem contents_push_all (xs : List T) (s : ShmRingBuffer T) (h : InRange s)
    (hm : s._hdr._capacity ≤ INT_MAX) :
    contents (push_all s xs) =
      (contents s ++ xs).drop ((contents s ++ xs).length - (s._hdr._capacity - 1)) := by
  induction xs generalizing s with
  | nil =>
    have hk := resident_lt s h
    show contents s = _
    rw [List.append_nil, contents_length,
      show resident s - (s._hdr._capacity - 1) = 0 by omega, List.drop_zero]
  | cons x xs ih =>
    show contents (push_all (push_back s x) xs) = _
    rw [ih (push_back s x) (push_back_inRange s x h hm) (by rw [push_back_capacity]; exact hm),
      push_back_capacity, contents_push_back s x h hm, drop_last_append, List.append_assoc,
      List.singleton_append]

/-- For capacities of at most `INT_MAX`: after pushing `N ≥ C` records into
any in-range state, the iteration returns exactly the last `C - 1` pushed
records, in push order. -/
theorem push_all_iterate_bounded (s : ShmRingBuffer T) (xs : List T) (fuel : Nat)
    (hr : InRange s) (hm : s._hdr._capacity ≤ INT_MAX) (hN : s._hdr._capacity ≤ xs.length)
    (hf : s._hdr._capacity ≤ fuel) :
    iterate (push_all s xs) fuel = some (xs.drop (xs.length - (s._hdr._capacity - 1))) := by
  rw [iterate_eq_window _ (push_all_inRange xs s hr hm) (by rw [push_all_capacity]; exact hm)
    fuel (by rw [push_all_capacity]; exact hf)]
  rw [contents_push_all xs s hr hm, List.length_append,
    show (contents s).length + xs.length - (s._hdr._capacity - 1) =
      (contents s).length + (xs.length - (s._hdr._capacity - 1)) by omega,
    List.drop_append]

/-! ### Claims on `push_back` and `dump_front` -/

/-- C2, as stated, fails at capacity 1: the iteration of the fresh buffer is
empty, which is `C - 1 = 0` records, yet after `push_back 7` the iteration is
still empty and not `[7]`. -/
theorem push_back_iterate_capacity_one :
    InRange (init_master 1 blank) ∧ iterate (init_master 1 blank) 1 = some [] ∧
      ([] : List Nat).length = (init_master 1 blank)._hdr._capacity - 1 ∧
      iterate (push_back (init_master 1 blank) 7) 1 = some [] ∧
      iterate (push_back (init_master 1 blank) 7) 1 ≠ some (([] : List Nat).tail ++ [7]) := by
  decide

/-- C2, amended to capacities `2 ≤ C ≤ INT_MAX`. For an in-range state whose
iteration is `L`, `push_back x` gives iteration `L ++ [x]` with `_begin`
unchanged when `L` has fewer than `C - 1` records, and `L.tail ++ [x]` with
`_begin` advanced by one modulo `C` when `L` has `C - 1` records; `L` never
has more. -/
theorem push_back_iterate (s : ShmRingBuffer T) (x : T) (L : List T) (fuel0 fuel : Nat)
    (hC : 2 ≤ s._hdr._capacity) (hm : s._hdr._capacity ≤ INT_MAX) (hr : InRange s)
    (hL : iterate s fuel0 = some L) (hf : s._hdr._capacity ≤ fuel) :
    (L.length < s._hdr._capacity - 1 →
        iterate (push_back s x) fuel = some (L ++ [x]) ∧
          (push_back s x)._hdr._begin = s._hdr._begin) ∧
      (L.length = s._hdr._capacity - 1 →
        iterate (push_back s x) fuel = some (L.tail ++ [x]) ∧
          (push_back s x)._hdr._begin = (s._hdr._begin + 1) % (s._hdr._capacity : Int)) ∧
      L.length ≤ s._hdr._capacity - 1 := by
  have hLc : L = contents s := iterate_some s hr hm hL
  have hlen : L.length = resident s := by rw [hLc, contents_length]
  have hk := resident_lt s hr
  have hit : iterate (push_back s x) fuel = some (contents (push_back s x)) :=
    iterate_eq_window _ (push_back_inRange s x hr hm) (by rw [push_back_capacity]; exact hm)
      fuel (by rw [push_back_capacity]; exact hf)
  refine ⟨fun hlt => ?_, fun heq => ?_, by omega⟩
  · obtain ⟨h1, h2⟩ := push_back_room s x hr hm (by omega)
    exact ⟨by rw [hit, h2, hLc], h1⟩
  · obtain ⟨h1, h2⟩ := push_back_full s x hr hm (by omega)
    refine ⟨?_, ?_⟩
    · rw [hit, h2, ← hLc]
      cases L with
      | nil => simp at heq; omega
      | cons a l => rfl
    · rw [h1, Int.natCast_mod, Nat.cast_add, Int.toNat_of_nonneg hr.1.1, Nat.cast_one]

theorem push_back_iterate_witness :
    2 ≤ (push_all (init_master 4 blank) [1, 2, 3])._hdr._capacity ∧
      (push_all (init_master 4 blank) [1, 2, 3])._hdr._capacity ≤ INT_MAX ∧
      InRange (push_all (init_master 4 blank) [1, 2, 3]) ∧
      iterate (push_all (init_master 4 blank) [1, 2, 3]) 4 = some [1, 2, 3] ∧
      iterate (push_back (push_all (init_master 4 blank) [1, 2, 3]) 4) 4 = some [2, 3, 4] ∧
      (push_back (push_all (init_master 4 blank) [1, 2, 3]) 4)._hdr._begin
        = ((push_all (init_master 4 blank) [1, 2, 3])._hdr._begin + 1)
          % ((push_all (init_master 4 blank) [1, 2, 3])._hdr._capacity : Int) :=
  ⟨by decide, by decide, by decide, by decide,
    ((push_back_iterate (push_all (init_master 4 blank) [1, 2, 3]) 4 [1, 2, 3] 4 4
      (by decide) (by decide) (by decide) (by decide) (by decide)).2.1 (by decide)).1,
    ((push_back_iterate (push_all (init_master 4 blank) [1, 2, 3]) 4 [1, 2, 3] 4 4
      (by decide) (by decide) (by decide) (by decide) (by decide)).2.1 (by decide)).2⟩

/-- C3, as stated, fails at capacity 1: on the empty buffer `push_back 7`
leaves `_begin == _end`, so `dump_front` takes its empty branch and returns
whatever its uninitialised local holds, `32765` say, and not `7`. -/
theorem push_back_dump_front_capacity_one :
    1 ≤ (init_master 1 blank)._hdr._capacity ∧ InRange (init_master 1 blank) ∧
      (init_master 1 blank)._hdr._begin = (init_master 1 blank)._hdr._end ∧
      (push_back (init_master 1 blank) 7)._hdr._begin
        = (push_back (init_master 1 blank) 7)._hdr._end ∧
      (dump_front (push_back (init_master 1 blank) 7) 32765).1 = 32765 ∧
      (dump_front (push_back (init_master 1 blank) 7) 32765).1 ≠ 7 := by
  decide

/-- C3, amended to capacities `2 ≤ C ≤ INT_MAX`. On an empty in-range buffer,
`push_back x` followed by `dump_front` returns `x`, whatever the local `ret`
held, and leaves the buffer empty again (`_begin == _end`). -/
theorem push_back_dump_front (s : ShmRingBuffer T) (x ret : T)
    (hC : 2 ≤ s._hdr._capacity) (hm : s._hdr._capacity ≤ INT_MAX) (hr : InRange s)
    (he : s._hdr._begin = s._hdr._end) :
    (dump_front (push_back s x) ret).1 = x ∧
      (dump_front (push_back s x) ret).2._hdr._begin =
        (dump_front (push_back s x) ret).2._hdr._end := by
  have hk : resident s = 0 := by
    have := contents_length s
    rw [contents_empty s he] at this
    exact this.symm
  have hne : ¬ next_index_machine s._hdr._end s._hdr._capacity = s._hdr._begin := by
    rw [push_back_full_iff s hr hm]; omega
  have hb := push_back_begin_room s x hne
  have hne2 : (push_back s x)._hdr._begin ≠ (push_back s x)._hdr._end := by
    rw [hb, push_back_end]; exact fun h => hne h.symm
  unfold dump_front
  rw [if_pos hne2]
  simp only [hb, push_back_slots, push_back_end, push_back_capacity]
  rw [he]
  exact ⟨Function.update_same _ _ _, rfl⟩

theorem push_back_dump_front_witness :
    2 ≤ (clear wrapped)._hdr._capacity ∧ (clear wrapped)._hdr._capacity ≤ INT_MAX ∧
      InRange (clear wrapped) ∧
      (clear wrapped)._hdr._begin = (clear wrapped)._hdr._end ∧
      (dump_front (push_back (clear wrapped) 7) 32765).1 = 7 ∧
      (dump_front (push_back (clear wrapped) 7) 32765).2._hdr._begin =
        (dump_front (push_back (clear wrapped) 7) 32765).2._hdr._end :=
  ⟨by decide, by decide, by decide, by decide,
    push_back_dump_front (clear wrapped) 7 32765 (by decide) (by decide) (by decide)
      (by decide)⟩

/-! ### A pushing process against a popping process -/

/-- Along any schedule from an in-range state of capacity at most `INT_MAX`:
what process B took from a non-empty buffer followed by what is resident at
the end is a sublist of what was resident at the start followed by what
process A pushed, and the records missing from it are as many as the
`push_back` calls that found the buffer full. -/
theorem schedule_accounting (sch : List (Turn T)) (s : ShmRingBuffer T)
    (hr : InRange s) (hm : s._hdr._capacity ≤ INT_MAX) :
    InRange (final sch s) ∧ (final sch s)._hdr._capacity = s._hdr._capacity ∧
      List.Sublist (taken sch s ++ contents (final sch s)) (contents s ++ pushed sch) ∧
      (taken sch s ++ contents (final sch s)).length + dropped sch s =
        (contents s ++ pushed sch).length := by
  induction sch generalizing s with
  | nil => exact ⟨hr, rfl, by simp [taken, final, pushed], by simp [taken, final, pushed, dropped]⟩
  | cons turn sch ih =>
    cases turn with
    | A x =>
      obtain ⟨h1, h2, h3, h4⟩ := ih (push_back s x) (push_back_inRange s x hr hm)
        (by rw [push_back_capacity]; exact hm)
      have hk := resident_lt s hr
      simp only [final, taken, pushed, dropped]
      refine ⟨h1, by rw [h2, push_back_capacity], ?_, ?_⟩
      · refine h3.trans ?_
        rw [show contents s ++ x :: pushed sch = (contents s ++ [x]) ++ pushed sch by simp]
        apply List.Sublist.append_right
        rw [contents_push_back s x hr hm]
        exact List.drop_sublist _ _
      · by_cases hfull : next_index_machine s._hdr._end s._hdr._capacity = s._hdr._begin
        · have hk1 := (push_back_full_iff s hr hm).mp hfull
          have hc := (push_back_full s x hr hm hk1).2
          rw [if_pos hfull]
          simp only [List.length_append, hc, List.length_drop, List.length_cons,
            List.length_nil, contents_length] at h4 ⊢
          omega
        · have hk1 : resident s + 1 < s._hdr._capacity := by
            have := (push_back_full_iff s hr hm).not.mp hfull
            omega
          have hc := (push_back_room s x hr hm hk1).2
          rw [if_neg hfull]
          simp only [List.length_append, hc, List.length_cons,
            List.length_nil, contents_length] at h4 ⊢
          omega
    | B ret =>
      by_cases hne : s._hdr._begin ≠ s._hdr._end
      · obtain ⟨hr1, hcap, _, hc⟩ := dump_front_nonempty s ret hr hm hne
        obtain ⟨h1, h2, h3, h4⟩ := ih (dump_front s ret).2 hr1 (by rw [hcap]; exact hm)
        simp only [final, taken, pushed, dropped, if_pos hne]
        refine ⟨h1, by rw [h2, hcap], ?_, ?_⟩
        · rw [hc]
          exact List.Sublist.cons₂ _ h3
        · rw [hc]
          simp only [List.length_append, List.length_cons] at h4 ⊢
          omega
      · have he : s._hdr._begin = s._hdr._end := by simpa using hne
        have hd := dump_front_empty s ret he
        obtain ⟨h1, h2, h3, h4⟩ := ih s hr hm
        simp only [final, taken, pushed, dropped, if_neg hne, hd]
        exact ⟨h1, h2, h3, h4⟩

/-- C10, as stated, fails on the schedule in which process A makes its five
pushes `1, 2, 3, 4, 5` before process B runs: nothing was returned to B and
the buffer of capacity 3 holds `[4, 5]`; records `1, 2, 3` are gone. -/
theorem five_pushes_lose_records :
    pushed [Turn.A 1, Turn.A 2, Turn.A 3, Turn.A 4, Turn.A 5] = [1, 2, 3, 4, 5] ∧
      returned [Turn.A 1, Turn.A 2, Turn.A 3, Turn.A 4, Turn.A 5] (init_master 3 blank) = [] ∧
      iterate (final [Turn.A 1, Turn.A 2, Turn.A 3, Turn.A 4, Turn.A 5] (init_master 3 blank)) 3
        = some [4, 5] ∧
      ¬ List.Perm ([] ++ [4, 5]) [1, 2, 3, 4, 5] := by
  refine ⟨by decide, by decide, by decide, fun h => ?_⟩
  have := h.length_eq
  simp at this

/-- C10, amended. On a freshly initialised buffer of capacity 3, for every
interleaving of five `push_back` calls with `dump_front` calls, the final
iteration terminates with the resident records `res`, and the records taken
by the pops that found the buffer non-empty followed by `res` are a sublist
of the five pushed records in push order (none duplicated, none invented,
none reordered); they are `5 - d` in number, where `d` counts the `push_back`
calls that found the buffer full and dropped the oldest record, and they are
exactly the five pushed records when `d = 0`. -/
theorem two_process_accounting [Inhabited T] (seg : ShmRingBuffer T) (sch : List (Turn T))
    (h5 : (pushed sch).length = 5) :
    ∃ res, iterate (final sch (init_master 3 seg)) 3 = some res ∧
      List.Sublist (taken sch (init_master 3 seg) ++ res) (pushed sch) ∧
      ((pushed sch).Nodup → (taken sch (init_master 3 seg) ++ res).Nodup) ∧
      (taken sch (init_master 3 seg) ++ res).length + dropped sch (init_master 3 seg) = 5 ∧
      (dropped sch (init_master 3 seg) = 0 →
        taken sch (init_master 3 seg) ++ res = pushed sch) := by
  have hr : InRange (init_master 3 seg) :=
    ⟨⟨Int.le_refl 0, show (0 : Int) < ((3 : Nat) : Int) by decide⟩,
      ⟨Int.le_refl 0, show (0 : Int) < ((3 : Nat) : Int) by decide⟩⟩
  have hm : (init_master 3 seg)._hdr._capacity ≤ INT_MAX :=
    show 3 ≤ 2147483647 by decide
  obtain ⟨h1, h2, h3, h4⟩ := schedule_accounting sch (init_master 3 seg) hr hm
  rw [contents_empty (init_master 3 seg) rfl, List.nil_append] at h3 h4
  refine ⟨contents (final sch (init_master 3 seg)),
    iterate_eq_window _ h1 (by rw [h2]; exact hm) 3 (by rw [h2]; exact Nat.le_refl 3), h3,
    fun hn => hn.sublist h3, by omega, fun h0 => h3.eq_of_length (by omega)⟩

theorem two_process_accounting_witness :
    (pushed [Turn.A 1, Turn.A 2, Turn.B 0, Turn.A 3, Turn.A 4, Turn.B 0, Turn.B 0,
        Turn.A 5]).length = 5 ∧
      ∃ res,
        iterate (final [Turn.A 1, Turn.A 2, Turn.B 0, Turn.A 3, Turn.A 4, Turn.B 0, Turn.B 0,
          Turn.A 5] (init_master 3 blank)) 3 = some res ∧
        List.Sublist
          (taken [Turn.A 1, Turn.A 2, Turn.B 0, Turn.A 3, Turn.A 4, Turn.B 0, Turn.B 0,
            Turn.A 5] (init_master 3 blank) ++ res)
          (pushed [Turn.A 1, Turn.A 2, Turn.B 0, Turn.A 3, Turn.A 4, Turn.B 0, Turn.B 0,
            Turn.A 5]) :=
  ⟨by decide,
    (two_process_accounting blank
      [Turn.A 1, Turn.A 2, Turn.B 0, Turn.A 3, Turn.A 4, Turn.B 0, Turn.B 0, Turn.A 5]
      (by decide)).imp (fun _ h => ⟨h.1, h.2.1⟩)⟩

/-! ### The header under every operation, and `clear` against a fresh buffer -/

theorem exec_capacity (s : ShmRingBuffer T) (ret : T) (op : Op T) :
    (exec s ret op).1._hdr._capacity = s._hdr._capacity := by
  cases op with
  | push_back e => exact push_back_capacity s e
  | dump_front =>
    show (dump_front s ret).2._hdr._capacity = _
    unfold dump_front
    split_ifs <;> rfl
  | _ => rfl

/-- For capacities of at most `INT_MAX` every operation keeps `_begin` and
`_end` in `[0, _capacity)`. -/
theorem exec_inRange (s : ShmRingBuffer T) (ret : T) (op : Op T) (h : InRange s)
    (hm : s._hdr._capacity ≤ INT_MAX) : InRange (exec s ret op).1 := by
  cases op with
  | push_back e => exact push_back_inRange s e h hm
  | dump_front =>
    show InRange (dump_front s ret).2
    by_cases hne : s._hdr._begin ≠ s._hdr._end
    · exact (dump_front_nonempty s ret h hm hne).1
    · rw [dump_front_empty s ret (by simpa using hne)]; exact h
  | clear =>
    have hc : (0 : Int) < (s._hdr._capacity : Int) := by
      have := h.1
      omega
    exact ⟨⟨Int.le_refl 0, hc⟩, ⟨Int.le_refl 0, hc⟩⟩
  | _ => exact h

theorem unparse_loop_short (s : ShmRingBuffer T) (hm : s._hdr._capacity ≤ INT_MAX)
    (fuel : Nat) :
    ∀ k (i : Nat), i < s._hdr._capacity →
      (∀ j, j < k → (i + j) % s._hdr._capacity ≠ s._hdr._end.toNat) → fuel ≤ k →
      unparse_loop s fuel (i : Int) = none := by
  induction fuel with
  | zero => intro k i _ _ _; rfl
  | succ n ih =>
    intro k i hi hne hf
    have h0 : (i : Int) ≠ s._hdr._end := by
      have := hne 0 (by omega)
      rw [Nat.add_zero, Nat.mod_eq_of_lt hi] at this
      omega
    have hc : 0 < s._hdr._capacity := by omega
    have hnext := next_index_machine_eq i s._hdr._capacity hi hm
    have hrec := ih (k - 1) ((i + 1) % s._hdr._capacity) (Nat.mod_lt _ hc)
      (by
        intro j hj
        rw [Nat.mod_add_mod]
        have := hne (j + 1) (by omega)
        rwa [show i + 1 + j = i + (j + 1) by omega])
      (by omega)
    simp only [unparse_loop, if_neg h0, hnext, hrec, Option.map_none']

/-- For capacities of at most `INT_MAX` the iteration result is a function of
the header, the resident records and the fuel alone. -/
theorem iterate_eq (s : ShmRingBuffer T) (h : InRange s) (hm : s._hdr._capacity ≤ INT_MAX)
    (fuel : Nat) :
    iterate s fuel =
      if s._hdr._begin = s._hdr._end ∨ resident s < fuel then some (contents s) else none := by
  have hk := resident_lt s h
  have hreach := resident_reach s h
  have hfirst := resident_first s h
  obtain ⟨⟨hb0, hb1⟩, ⟨he0, he1⟩⟩ := h
  by_cases hbe : s._hdr._begin = s._hdr._end
  · rw [if_pos (Or.inl hbe), contents_empty s hbe]
    unfold iterate
    rw [if_pos hbe]
  · by_cases hlt : resident s < fuel
    · have hloop := unparse_loop_window s hm he0 (resident s) fuel s._hdr._begin.toNat
        (by omega) hreach hfirst hlt
      rw [Int.toNat_of_nonneg hb0] at hloop
      rw [if_pos (Or.inr hlt)]
      unfold iterate
      rw [if_neg hbe]
      exact hloop
    · have hloop := unparse_loop_short s hm fuel (resident s) s._hdr._begin.toNat
        (by omega) hfirst (by omega)
      rw [Int.toNat_of_nonneg hb0] at hloop
      rw [if_neg (by tauto)]
      unfold iterate
      rw [if_neg hbe]
      exact hloop

/-- For capacities of at most `INT_MAX`: two segments that look alike give,
for the same operation and the same content of the uninitialised local, the
same result and segments that look alike again. -/
theorem exec_alike (s t : ShmRingBuffer T) (ret : T) (op : Op T) (hs : InRange s)
    (hm : s._hdr._capacity ≤ INT_MAX) (h : Alike s t) :
    (exec s ret op).2 = (exec t ret op).2 ∧ Alike (exec s ret op).1 (exec t ret op).1 := by
  obtain ⟨hh, hc⟩ := h
  have ht : InRange t := by unfold InRange at hs ⊢; rw [← hh]; exact hs
  have hmt : t._hdr._capacity ≤ INT_MAX := by rw [← hh]; exact hm
  cases op with
  | get_capacity => exact ⟨by simp only [exec, capacity, hh], hh, hc⟩
  | get_begin => exact ⟨by simp only [exec, ShmRingBuffer.begin, hh], hh, hc⟩
  | get_end => exact ⟨by simp only [exec, ShmRingBuffer.end, hh], hh, hc⟩
  | clear =>
    refine ⟨rfl, ?_, ?_⟩
    · simp only [exec, clear, hh]
    · show contents (clear s) = contents (clear t)
      rw [contents_empty (clear s) rfl, contents_empty (clear t) rfl]
  | push_back e =>
    refine ⟨rfl, ?_, ?_⟩
    · simp only [exec, push_back, hh]
      split_ifs <;> rfl
    · show contents (push_back s e) = contents (push_back t e)
      rw [contents_push_back s e hs hm, contents_push_back t e ht hmt, hc, hh]
  | dump_front =>
    show Obs.record (dump_front s ret).1 = Obs.record (dump_front t ret).1 ∧
      Alike (dump_front s ret).2 (dump_front t ret).2
    by_cases hne : s._hdr._begin ≠ s._hdr._end
    · have hne2 : t._hdr._begin ≠ t._hdr._end := by rw [← hh]; exact hne
      have h1 := (dump_front_nonempty s ret hs hm hne).2.2.2
      have h2 := (dump_front_nonempty t ret ht hmt hne2).2.2.2
      rw [hc, h2] at h1
      obtain ⟨h3, h4⟩ := List.cons.inj h1
      refine ⟨by rw [h3], ?_, h4.symm⟩
      simp only [dump_front, if_pos hne, if_pos hne2, hh]
    · have he : s._hdr._begin = s._hdr._end := by simpa using hne
      have he2 : t._hdr._begin = t._hdr._end := by rw [← hh]; exact he
      rw [dump_front_empty s ret he, dump_front_empty t ret he2]
      exact ⟨rfl, hh, hc⟩
  | iterate fuel =>
    refine ⟨?_, hh, hc⟩
    show Obs.records (iterate s fuel) = Obs.records (iterate t fuel)
    rw [iterate_eq s hs hm, iterate_eq t ht hmt]
    unfold resident
    rw [hc, hh]
  | unparse fuel render =>
    refine ⟨?_, hh, hc⟩
    show Obs.text (unparse s fuel render) = Obs.text (unparse t fuel render)
    unfold unparse
    rw [iterate_eq s hs hm, iterate_eq t ht hmt]
    unfold resident
    rw [hc, hh]

theorem run_alike (ops : List (Op T)) (rets : Nat → T) (s t : ShmRingBuffer T)
    (hs : InRange s) (hm : s._hdr._capacity ≤ INT_MAX) (h : Alike s t) :
    run ops rets s = run ops rets t := by
  induction ops generalizing s t rets with
  | nil => rfl
  | cons op ops ih =>
    obtain ⟨h1, h2⟩ := exec_alike s t (rets 0) op hs hm h
    simp only [run]
    rw [h1, ih _ _ _ (exec_inRange s (rets 0) op hs hm)
      (by rw [exec_capacity]; exact hm) h2]

/-- For an in-range state `s` of capacity `C ≤ INT_MAX`, every sequence of
operations returns from `clear s` what it returns from a buffer freshly
initialised with capacity `C`, as long as the uninitialised local of each
`dump_front` call holds the same content in both runs. -/
theorem run_clear_fresh (s seg : ShmRingBuffer T) (ops : List (Op T)) (rets : Nat → T)
    (hr : InRange s) (hm : s._hdr._capacity ≤ INT_MAX) :
    run ops rets (clear s) = run ops rets (init_master s._hdr._capacity seg) := by
  refine run_alike ops rets _ _ (exec_inRange s (rets 0) Op.clear hr hm) hm ⟨rfl, ?_⟩
  rw [contents_empty (clear s) rfl, contents_empty (init_master s._hdr._capacity seg) rfl]
/-! ### Capacities above `INT_MAX`

`_capacity` is a `size_t`, `_begin` and `_end` are `int`.  With a capacity of
`2^31 + 1` the index `INT_MAX` is in range, and `(INT_MAX + 1) % _capacity`
is evaluated as `to_int (to_size_t (to_int 2147483648) % 2147483649)`, which
is `5` and not `2147483648`. -/

/-- Below `INT_MAX` and below the capacity the index update is the plain
successor. -/
theorem next_index_machine_succ (i : Int) (cap : Nat) (h0 : 0 ≤ i) (h1 : i < 2147483647)
    (h2 : i + 1 < (cap : Int)) : next_index_machine i cap = i + 1 := by
  have e1 : to_int (i + 1) = i + 1 := by unfold to_int; omega
  have e2 : to_size_t (i + 1) = (i + 1).toNat := by unfold to_size_t; omega
  unfold next_index_machine
  rw [e1, e2, Nat.mod_eq_of_lt (by omega)]
  unfold to_int
  omega

/-- At capacity `2^31 + 1` the index update maps `[0, INT_MAX]` into
`[1, INT_MAX]`: slot `2^31` and, after the first step, slot `0` are never
reached. -/
theorem next_index_machine_above (e : Int) (h0 : 0 ≤ e) (hM : e ≤ 2147483647) :
    1 ≤ next_index_machine e 2147483649 ∧ next_index_machine e 2147483649 ≤ 2147483647 := by
  rcases Int.lt_or_le e 2147483647 with h | h
  · rw [next_index_machine_succ e _ h0 h (by omega)]
    omega
  · have he : e = 2147483647 := by omega
    subst he
    decide

/-- A push into a segment of capacity `2^31 + 1` with `_begin = 0` and `_end`
in `[0, INT_MAX]` never finds the buffer full: `_begin` stays `0` and `_end`
stays in `[1, INT_MAX]`. -/
theorem push_back_above (s : ShmRingBuffer T) (x : T) (hc : s._hdr._capacity = 2147483649)
    (hb : s._hdr._begin = 0) (h0 : 0 ≤ s._hdr._end) (hM : s._hdr._end ≤ 2147483647) :
    ¬ next_index_machine s._hdr._end s._hdr._capacity = s._hdr._begin ∧
      (push_back s x)._hdr._capacity = 2147483649 ∧ (push_back s x)._hdr._begin = 0 ∧
      1 ≤ (push_back s x)._hdr._end ∧ (push_back s x)._hdr._end ≤ 2147483647 := by
  have hn := next_index_machine_above s._hdr._end h0 hM
  rw [← hc] at hn
  have hne : ¬ next_index_machine s._hdr._end s._hdr._capacity = s._hdr._begin := by
    rw [hb]; omega
  refine ⟨hne, ?_, ?_, ?_, ?_⟩
  · rw [push_back_capacity, hc]
  · rw [push_back_begin_room s x hne, hb]
  · rw [push_back_end]; exact hn.1
  · rw [push_back_end]; exact hn.2

theorem push_all_above (xs : List T) (s : ShmRingBuffer T)
    (hc : s._hdr._capacity = 2147483649) (hb : s._hdr._begin = 0) (h0 : 0 ≤ s._hdr._end)
    (hM : s._hdr._end ≤ 2147483647) :
    (push_all s xs)._hdr._capacity = 2147483649 ∧ (push_all s xs)._hdr._begin = 0 ∧
      0 ≤ (push_all s xs)._hdr._end ∧ (push_all s xs)._hdr._end ≤ 2147483647 := by
  induction xs generalizing s with
  | nil => exact ⟨hc, hb, h0, hM⟩
  | cons x xs ih =>
    obtain ⟨_, h1, h2, h3, h4⟩ := push_back_above s x hc hb h0 hM
    exact ih (push_back s x) h1 h2 (by omega) h4

/-- A walk that reaches `_end` by plain successor steps, below `INT_MAX` and
below the capacity, returns as many records as it took steps. -/
theorem unparse_loop_straight (s : ShmRingBuffer T) (hM : s._hdr._end ≤ 2147483647)
    (hc : s._hdr._end < (s._hdr._capacity : Int)) (k : Nat) :
    ∀ (fuel : Nat) (i : Int), 0 ≤ i → i + (k : Int) = s._hdr._end → k < fuel →
      ∃ L, unparse_loop s fuel i = some L ∧ L.length = k := by
  induction k with
  | zero =>
    intro fuel i _ hi hf
    obtain ⟨n, rfl⟩ : ∃ n, fuel = n + 1 := ⟨fuel - 1, by omega⟩
    have h2 : i = s._hdr._end := by omega
    exact ⟨[], by simp [unparse_loop, h2], rfl⟩
  | succ k ih =>
    intro fuel i h0 hi hf
    obtain ⟨n, rfl⟩ : ∃ n, fuel = n + 1 := ⟨fuel - 1, by omega⟩
    have hne : i ≠ s._hdr._end := by omega
    have hnext := next_index_machine_succ i s._hdr._capacity h0 (by omega) (by omega)
    obtain ⟨L, hL, hlen⟩ := ih n (i + 1) (by omega) (by omega) (by omega)
    refine ⟨s._v i :: L, ?_, by rw [List.length_cons, hlen]⟩
    simp only [unparse_loop, if_neg hne, hnext, hL, Option.map_some']

/-- With `_begin = 0` and `_end` in `[0, INT_MAX]` below the capacity, the
iteration terminates with `_end` records, which is at most `INT_MAX`. -/
theorem iterate_straight (s : ShmRingBuffer T) (hb : s._hdr._begin = 0)
    (h0 : 0 ≤ s._hdr._end) (hM : s._hdr._end ≤ 2147483647)
    (hc : s._hdr._end < (s._hdr._capacity : Int)) :
    ∃ L, iterate s 2147483649 = some L ∧ L.length ≤ 2147483647 := by
  obtain ⟨L, hL, hlen⟩ := unparse_loop_straight s hM hc s._hdr._end.toNat 2147483649 0
    (Int.le_refl 0) (by omega) (by omega)
  unfold iterate
  split_ifs with hbe
  · exact ⟨[], rfl, Nat.zero_le _⟩
  · rw [hb]
    exact ⟨L, hL, by omega⟩

theorem push_all_snoc (xs : List T) (x : T) (s : ShmRingBuffer T) :
    push_all s (xs ++ [x]) = push_back (push_all s xs) x := by
  unfold push_all
  rw [List.foldl_append]
  rfl

/-- At capacity `2^31 + 1` with `_begin = 0`, pushes that stay at or below
`INT_MAX` advance `_end` by one each. -/
theorem push_all_straight (xs : List T) (s : ShmRingBuffer T)
    (hc : s._hdr._capacity = 2147483649) (hb : s._hdr._begin = 0) (h0 : 0 ≤ s._hdr._end)
    (hk : s._hdr._end + (xs.length : Int) ≤ 2147483647) :
    (push_all s xs)._hdr._capacity = 2147483649 ∧ (push_all s xs)._hdr._begin = 0 ∧
      (push_all s xs)._hdr._end = s._hdr._end + (xs.length : Int) := by
  induction xs generalizing s with
  | nil => exact ⟨hc, hb, by simp [push_all]⟩
  | cons x xs ih =>
    rw [List.length_cons, Nat.cast_add, Nat.cast_one] at hk
    obtain ⟨_, h1, h2, h3, _⟩ := push_back_above s x hc hb h0 (by omega)
    have he : (push_back s x)._hdr._end = s._hdr._end + 1 := by
      rw [push_back_end, hc]
      exact next_index_machine_succ _ _ h0 (by omega) (by omega)
    obtain ⟨g1, g2, g3⟩ := ih (push_back s x) h1 h2 (by omega) (by rw [he]; omega)
    refine ⟨g1, g2, ?_⟩
    show (push_all (push_back s x) xs)._hdr._end = _
    rw [g3, he, List.length_cons, Nat.cast_add, Nat.cast_one]
    omega

/-- Schedules of pushes only: the final segment is the one `push_all` gives. -/
theorem final_pushes (xs : List T) (s : ShmRingBuffer T) :
    final (xs.map Turn.A) s = push_all s xs := by
  induction xs generalizing s with
  | nil => rfl
  | cons x xs ih => exact ih (push_back s x)

theorem pushed_pushes (xs : List T) : pushed (xs.map Turn.A) = xs := by
  induction xs with
  | nil => rfl
  | cons x xs ih => simp only [List.map_cons, pushed, ih]

theorem taken_pushes (xs : List T) (s : ShmRingBuffer T) : taken (xs.map Turn.A) s = [] := by
  induction xs generalizing s with
  | nil => rfl
  | cons x xs ih => exact ih (push_back s x)

theorem dropped_pushes_above (xs : List T) (s : ShmRingBuffer T)
    (hc : s._hdr._capacity = 2147483649) (hb : s._hdr._begin = 0) (h0 : 0 ≤ s._hdr._end)
    (hM : s._hdr._end ≤ 2147483647) : dropped (xs.map Turn.A) s = 0 := by
  induction xs generalizing s with
  | nil => rfl
  | cons x xs ih =>
    obtain ⟨hne, h1, h2, h3, h4⟩ := push_back_above s x hc hb h0 hM
    simp only [List.map_cons, dropped, if_neg hne, ih (push_back s x) h1 h2 (by omega) h4]

/-! ### Claims that fail above `INT_MAX` -/

/-- C1 fails in the code at capacity `C = 2^31 + 1`. The state `at_int_max`
(`_begin = 0`, `_end = INT_MAX`) has its indices in `[0, C)`. The first
`push_back` sets `_end` to `5`, where `(INT_MAX + 1) mod C` is `2^31`, and
after any sequence of one or more pushes, so after any `N ≥ C` of them, the
iteration terminates with at most `INT_MAX = C - 2` records, never the
`C - 1` most recently pushed. -/
theorem push_all_at_int_max (x : Nat) (xs : List Nat) :
    InRange at_int_max ∧
      (push_back at_int_max x)._hdr._end = 5 ∧
      (at_int_max._hdr._end + 1) % (at_int_max._hdr._capacity : Int) = 2147483648 ∧
      ∃ L, iterate (push_all at_int_max (x :: xs)) 2147483649 = some L ∧
        L.length + 2 ≤ at_int_max._hdr._capacity := by
  obtain ⟨h1, h2, h3, h4⟩ := push_all_above (x :: xs) at_int_max rfl rfl (by decide) (by decide)
  obtain ⟨L, hL, hlen⟩ := iterate_straight (push_all at_int_max (x :: xs)) h2 h3 h4
    (by rw [h1]; omega)
  refine ⟨by decide, by rw [push_back_end]; decide, by decide, L, hL, ?_⟩
  show L.length + 2 ≤ 2147483649
  omega

/-- C5 fails in the code at capacity `C = 2^31 + 1`. The state
`begin_at_int_max` (`_begin = INT_MAX`, `_end = 7`, slot `i` holding `i`) has
its indices in `[0, C)` and is not empty; its iteration is
`[2147483647, 5, 6]`. `dump_front` returns the record at `_begin` and leaves
`_end` alone, but sets `_begin` to `5`, which is not `_begin + 1` modulo
`C` (that is `2^31`). -/
theorem dump_front_begin_at_int_max :
    InRange begin_at_int_max ∧
      begin_at_int_max._hdr._begin ≠ begin_at_int_max._hdr._end ∧
      iterate begin_at_int_max 4 = some [2147483647, 5, 6] ∧
      (dump_front begin_at_int_max 0).1 = 2147483647 ∧
      (dump_front begin_at_int_max 0).2._hdr._end = 7 ∧
      (dump_front begin_at_int_max 0).2._hdr._begin = 5 ∧
      (begin_at_int_max._hdr._begin + 1) % (begin_at_int_max._hdr._capacity : Int)
        = 2147483648 ∧
      iterate (dump_front begin_at_int_max 0).2 4 = some [5, 6] := by
  decide

/-- C7 fails in the code at capacity `C = 2^32`. Owner initialisation gives
indices in `[0, C)`, and the state `at_int_max_wide` (`_begin = 0`,
`_end = INT_MAX`) has its indices in `[0, C)`; `push_back` keeps the capacity
and sets `_end` to `-2147483648`, which is not in `[0, C)`. -/
theorem push_back_at_int_max_wide :
    0 < at_int_max_wide._hdr._capacity ∧ InRange (init_master 4294967296 blank) ∧
      InRange at_int_max_wide ∧
      (push_back at_int_max_wide 1)._hdr._capacity = at_int_max_wide._hdr._capacity ∧
      (push_back at_int_max_wide 1)._hdr._end = -2147483648 ∧
      ¬ InRange (push_back at_int_max_wide 1) := by
  decide

/-- C19 fails in the code at capacity `C = 2^31 + 1`. On the freshly
initialised buffer, after any sequence `xs` of pushes and no pop, no
`push_back` has found the buffer full (`dropped` is `0`: no record was lost
to a drop-oldest overwrite), nothing was popped, and the iteration
terminates with at most `INT_MAX` records; after `2^31` pushes the header is
`_begin = 0`, `_end = 5`. Of `2^31` or more pushed records all but `INT_MAX`
at most are lost without any overwrite of the oldest. -/
theorem pushes_above_int_max (xs : List Nat) :
    1 ≤ (init_master 2147483649 blank)._hdr._capacity ∧
      pushed (xs.map Turn.A) = xs ∧
      dropped (xs.map Turn.A) (init_master 2147483649 blank) = 0 ∧
      taken (xs.map Turn.A) (init_master 2147483649 blank) = [] ∧
      (∃ res, iterate (final (xs.map Turn.A) (init_master 2147483649 blank)) 2147483649
          = some res ∧
        (taken (xs.map Turn.A) (init_master 2147483649 blank) ++ res).length ≤ 2147483647) ∧
      (final ((List.replicate 2147483647 7 ++ [7]).map Turn.A)
        (init_master 2147483649 blank))._hdr._begin = 0 ∧
      (final ((List.replicate 2147483647 7 ++ [7]).map Turn.A)
        (init_master 2147483649 blank))._hdr._end = 5 := by
  obtain ⟨h1, h2, h3, h4⟩ := push_all_above xs (init_master 2147483649 blank) rfl rfl
    (by decide) (by decide)
  obtain ⟨res, hres, hlen⟩ := iterate_straight (push_all (init_master 2147483649 blank) xs)
    h2 h3 h4 (by rw [h1]; omega)
  obtain ⟨g1, g2, g3⟩ := push_all_straight (List.replicate 2147483647 7)
    (init_master 2147483649 blank) rfl rfl (by decide)
    (by rw [List.length_replicate]; decide)
  rw [List.length_replicate] at g3
  have g4 : (push_all (init_master 2147483649 blank) (List.replicate 2147483647 7))._hdr._end
      = 2147483647 := by rw [g3]; decide
  have hne : ¬ next_index_machine
      (push_all (init_master 2147483649 blank) (List.replicate 2147483647 7))._hdr._end
      (push_all (init_master 2147483649 blank) (List.replicate 2147483647 7))._hdr._capacity
      = (push_all (init_master 2147483649 blank) (List.replicate 2147483647 7))._hdr._begin := by
    rw [g1, g2, g4]; decide
  refine ⟨by decide, pushed_pushes xs, dropped_pushes_above xs _ rfl rfl (by decide) (by decide),
    taken_pushes xs _, ⟨res, ?_, ?_⟩, ?_, ?_⟩
  · rw [final_pushes]; exact hres
  · rw [taken_pushes, List.nil_append]; exact hlen
  · rw [final_pushes, push_all_snoc, push_back_begin_room _ _ hne, g2]
  · rw [final_pushes, push_all_snoc, push_back_end, g1, g4]
    decide

/-! ### The uninitialised local of `dump_front` -/

/-- C6 fails in the code. On an empty buffer `dump_front` mutates nothing,
and what it returns is the content of its uninitialised local: `32765` when
the local holds `32765`, `4` when it holds `4`, and not a default record. -/
theorem dump_front_empty_local :
    (init_master 4 blank)._hdr._begin = (init_master 4 blank)._hdr._end ∧
      dump_front (init_master 4 blank) 32765 = (32765, init_master 4 blank) ∧
      dump_front (init_master 4 blank) 4 = (4, init_master 4 blank) ∧
      (dump_front (init_master 4 blank) 32765).1 ≠ 0 ∧
      (dump_front (init_master 4 blank) 32765).1 ≠ (dump_front (init_master 4 blank) 4).1 := by
  refine ⟨rfl, rfl, rfl, by decide, by decide⟩

theorem count_set_phase (l : List Phase) (t : Nat) (p q r : Phase) (h : l[t]? = some p) :
    (l.set t q).count r + (if p = r then 1 else 0) =
      l.count r + (if q = r then 1 else 0) := by
  induction l generalizing t with
  | nil => simp at h
  | cons a l ih =>
    cases t with
    | zero =>
      simp only [List.getElem?_cons_zero, Option.some.injEq] at h
      subst h
      simp only [List.set_cons_zero, List.count_cons, beq_iff_eq]
      omega
    | succ t =>
      simp only [List.getElem?_cons_succ] at h
      have := ih t h
      simp only [List.set_cons_succ, List.count_cons, beq_iff_eq]
      omega

theorem lockInv_init (n : Nat) : LockInv (LockSystem.init n) := by
  unfold LockInv LockSystem.init ReadWriteLock.init
  simp [List.count_replicate]

theorem lockInv_step (sys sys1 : LockSystem) (t : Nat) (st : Step) (hinv : LockInv sys)
    (h : sys.step t st = some sys1) : LockInv sys1 := by
  obtain ⟨i1, i2, i3, i4, i5, i6⟩ := hinv
  cases st with
  | read_lock =>
    simp only [LockSystem.step] at h
    by_cases hp : sys.phase[t]? = some .idle
    swap
    · rw [if_neg hp] at h; cases h
    rw [if_pos hp] at h
    cases h
    unfold LockInv
    by_cases hc : sys.lock._nwrite ≠ 0 ∨ sys.lock._nwrite_waiters ≠ 0
    · have c := count_set_phase sys.phase t .idle .read_waiting
      have c1 := c .reading hp
      have c2 := c .read_waiting hp
      have c3 := c .writing hp
      have c4 := c .write_waiting hp
      simp only [reduceCtorEq, if_true, if_false] at c1 c2 c3 c4
      simp only [ReadWriteLock.read_lock, if_pos hc, Bool.false_eq_true, if_false]
      omega
    · have c := count_set_phase sys.phase t .idle .reading
      have c1 := c .reading hp
      have c2 := c .read_waiting hp
      have c3 := c .writing hp
      have c4 := c .write_waiting hp
      simp only [reduceCtorEq, if_true, if_false] at c1 c2 c3 c4
      simp only [ReadWriteLock.read_lock, if_neg hc, if_true]
      omega
  | read_lock_wake =>
    simp only [LockSystem.step] at h
    by_cases hp : sys.phase[t]? = some .read_waiting
    swap
    · rw [if_neg hp] at h; cases h
    rw [if_pos hp] at h
    cases h
    unfold LockInv
    by_cases hc : sys.lock._nwrite ≠ 0 ∨ sys.lock._nwrite_waiters ≠ 0
    · simp only [ReadWriteLock.read_lock_wake, if_pos hc, Bool.false_eq_true, if_false]
      exact ⟨i1, i2, i3, i4, i5, i6⟩
    · have c := count_set_phase sys.phase t .read_waiting .reading
      have c1 := c .reading hp
      have c2 := c .read_waiting hp
      have c3 := c .writing hp
      have c4 := c .write_waiting hp
      simp only [reduceCtorEq, if_true, if_false] at c1 c2 c3 c4
      simp only [ReadWriteLock.read_lock_wake, if_neg hc, if_true]
      omega
  | read_unlock =>
    simp only [LockSystem.step] at h
    by_cases hp : sys.phase[t]? = some .reading
    swap
    · rw [if_neg hp] at h; cases h
    rw [if_pos hp] at h
    cases h
    unfold LockInv
    have c := count_set_phase sys.phase t .reading .idle
    have c1 := c .reading hp
    have c2 := c .read_waiting hp
    have c3 := c .writing hp
    have c4 := c .write_waiting hp
    simp only [reduceCtorEq, if_true, if_false] at c1 c2 c3 c4
    simp only [ReadWriteLock.read_unlock]
    split_ifs <;> simp only <;> omega
  | write_lock =>
    simp only [LockSystem.step] at h
    by_cases hp : sys.phase[t]? = some .idle
    swap
    · rw [if_neg hp] at h; cases h
    rw [if_pos hp] at h
    cases h
    unfold LockInv
    by_cases hc : sys.lock._nread ≠ 0 ∨ sys.lock._nwrite ≠ 0
    · have c := count_set_phase sys.phase t .idle .write_waiting
      have c1 := c .reading hp
      have c2 := c .read_waiting hp
      have c3 := c .writing hp
      have c4 := c .write_waiting hp
      simp only [reduceCtorEq, if_true, if_false] at c1 c2 c3 c4
      simp only [ReadWriteLock.write_lock, if_pos hc, Bool.false_eq_true, if_false]
      omega
    · have c := count_set_phase sys.phase t .idle .writing
      have c1 := c .reading hp
      have c2 := c .read_waiting hp
      have c3 := c .writing hp
      have c4 := c .write_waiting hp
      simp only [reduceCtorEq, if_true, if_false] at c1 c2 c3 c4
      simp only [ReadWriteLock.write_lock, if_neg hc, if_true]
      omega
  | write_lock_wake =>
    simp only [LockSystem.step] at h
    by_cases hp : sys.phase[t]? = some .write_waiting
    swap
    · rw [if_neg hp] at h; cases h
    rw [if_pos hp] at h
    cases h
    unfold LockInv
    by_cases hc : sys.lock._nread ≠ 0 ∨ sys.lock._nwrite ≠ 0
    · simp only [ReadWriteLock.write_lock_wake, if_pos hc, Bool.false_eq_true, if_false]
      exact ⟨i1, i2, i3, i4, i5, i6⟩
    · have c := count_set_phase sys.phase t .write_waiting .writing
      have c1 := c .reading hp
      have c2 := c .read_waiting hp
      have c3 := c .writing hp
      have c4 := c .write_waiting hp
      simp only [reduceCtorEq, if_true, if_false] at c1 c2 c3 c4
      simp only [ReadWriteLock.write_lock_wake, if_neg hc, if_true]
      omega
  | write_unlock =>
    simp only [LockSystem.step] at h
    by_cases hp : sys.phase[t]? = some .writing
    swap
    · rw [if_neg hp] at h; cases h
    rw [if_pos hp] at h
    cases h
    unfold LockInv
    have c := count_set_phase sys.phase t .writing .idle
    have c1 := c .reading hp
    have c2 := c .read_waiting hp
    have c3 := c .writing hp
    have c4 := c .write_waiting hp
    simp only [reduceCtorEq, if_true, if_false] at c1 c2 c3 c4
    simp only [ReadWriteLock.write_unlock]
    split_ifs <;> simp only <;> omega

theorem lockInv_reachable (sys : LockSystem) (h : Reachable sys) : LockInv sys := by
  induction h with
  | init n => exact lockInv_init n
  | step t st _ hstep ih => exact lockInv_step _ _ t st ih hstep

/-- C8. In every state reachable from `init` by the lock's sections (unlocks
issued only by holders of the matching mode), `_nwrite` is at most 1 and
`_nwrite = 1` forces `_nread = 0`; moreover `_nwrite` and `_nread` are the
numbers of threads currently holding the lock for writing and for reading. -/
theorem lock_state_invariant (sys : LockSystem) (h : Reachable sys) :
    sys.lock._nwrite ≤ 1 ∧ (sys.lock._nwrite = 1 → sys.lock._nread = 0) ∧
      sys.lock._nwrite = sys.phase.count .writing ∧
      sys.lock._nread = sys.phase.count .reading := by
  obtain ⟨i1, _, i3, _, i5, i6⟩ := lockInv_reachable sys h
  exact ⟨i5, i6, i3, i1⟩

theorem lock_state_invariant_witness :
    Reachable
        { lock := { _nread := 0, _nread_waiters := 1, _nwrite := 1, _nwrite_waiters := 0 }
          phase := [.writing, .read_waiting] } ∧
      (1 : Nat) ≤ 1 ∧ ((1 : Nat) = 1 → (0 : Nat) = 0) ∧
      (1 : Nat) = [Phase.writing, Phase.read_waiting].count .writing ∧
      (0 : Nat) = [Phase.writing, Phase.read_waiting].count .reading :=
  ⟨Reachable.step 1 .read_lock (Reachable.step 0 .write_lock (Reachable.init 2) rfl) rfl,
    lock_state_invariant _
      (Reachable.step 1 .read_lock (Reachable.step 0 .write_lock (Reachable.init 2) rfl) rfl)⟩

/-- C9. Write preference: from a state with a registered waiting writer
(`_nwrite_waiters > 0`), no section increases `_nread`; a thread calling
`read_lock` ends up registered as a waiting reader; a waiting reader that
wakes changes nothing and stays waiting; and the only section that lowers
`_nwrite_waiters` is the wake section of a waiting writer, which deregisters
it and makes it the active writer. -/
theorem write_preference (sys sys1 : LockSystem) (t : Nat) (st : Step)
    (hw : 0 < sys.lock._nwrite_waiters) (hstep : sys.step t st = some sys1) :
    sys1.lock._nread ≤ sys.lock._nread ∧
      (st = .read_lock →
        sys1.phase[t]? = some .read_waiting ∧
          sys1.lock._nread_waiters = sys.lock._nread_waiters + 1) ∧
      (st = .read_lock_wake → sys1 = sys ∧ sys1.phase[t]? = some .read_waiting) ∧
      (sys1.lock._nwrite_waiters < sys.lock._nwrite_waiters →
        st = .write_lock_wake ∧ sys1.phase[t]? = some .writing ∧
          sys1.lock._nwrite = sys.lock._nwrite + 1 ∧
          sys1.lock._nwrite_waiters + 1 = sys.lock._nwrite_waiters) := by
  have hrc : sys.lock._nwrite ≠ 0 ∨ sys.lock._nwrite_waiters ≠ 0 := Or.inr (by omega)
  cases st with
  | read_lock =>
    simp only [LockSystem.step] at hstep
    by_cases hp : sys.phase[t]? = some .idle
    swap
    · rw [if_neg hp] at hstep; cases hstep
    rw [if_pos hp] at hstep
    cases hstep
    have ht : t < sys.phase.length := by
      rcases Nat.lt_or_ge t sys.phase.length with h | h
      · exact h
      · rw [List.getElem?_eq_none h] at hp; cases hp
    simp only [ReadWriteLock.read_lock, if_pos hrc, Bool.false_eq_true, if_false]
    refine ⟨Nat.le_refl _, fun _ => ⟨List.getElem?_set_self ht, ?_⟩, nofun, fun h => ?_⟩
    · trivial
    · omega
  | read_lock_wake =>
    simp only [LockSystem.step] at hstep
    by_cases hp : sys.phase[t]? = some .read_waiting
    swap
    · rw [if_neg hp] at hstep; cases hstep
    rw [if_pos hp] at hstep
    cases hstep
    simp only [ReadWriteLock.read_lock_wake, if_pos hrc, Bool.false_eq_true, if_false]
    refine ⟨Nat.le_refl _, nofun, fun _ => ⟨trivial, hp⟩, fun h => ?_⟩
    omega
  | read_unlock =>
    simp only [LockSystem.step] at hstep
    by_cases hp : sys.phase[t]? = some .reading
    swap
    · rw [if_neg hp] at hstep; cases hstep
    rw [if_pos hp] at hstep
    cases hstep
    simp only [ReadWriteLock.read_unlock]
    refine ⟨?_, nofun, nofun, fun h => ?_⟩
    · split_ifs <;> simp only <;> omega
    · split_ifs at h <;> simp only at h <;> omega
  | write_lock =>
    simp only [LockSystem.step] at hstep
    by_cases hp : sys.phase[t]? = some .idle
    swap
    · rw [if_neg hp] at hstep; cases hstep
    rw [if_pos hp] at hstep
    cases hstep
    simp only [ReadWriteLock.write_lock]
    refine ⟨?_, nofun, nofun, fun h => ?_⟩
    · split_ifs <;> simp only <;> omega
    · split_ifs at h <;> simp only at h <;> omega
  | write_lock_wake =>
    simp only [LockSystem.step] at hstep
    by_cases hp : sys.phase[t]? = some .write_waiting
    swap
    · rw [if_neg hp] at hstep; cases hstep
    rw [if_pos hp] at hstep
    cases hstep
    have ht : t < sys.phase.length := by
      rcases Nat.lt_or_ge t sys.phase.length with h | h
      · exact h
      · rw [List.getElem?_eq_none h] at hp; cases hp
    by_cases hc : sys.lock._nread ≠ 0 ∨ sys.lock._nwrite ≠ 0
    · simp only [ReadWriteLock.write_lock_wake, if_pos hc, Bool.false_eq_true, if_false]
      refine ⟨Nat.le_refl _, nofun, nofun, fun h => ?_⟩
      omega
    · simp only [ReadWriteLock.write_lock_wake, if_neg hc, if_true]
      refine ⟨Nat.le_refl _, nofun, nofun, fun _ => ⟨trivial, List.getElem?_set_self ht, ?_, ?_⟩⟩
      · trivial
      · omega
  | write_unlock =>
    simp only [LockSystem.step] at hstep
    by_cases hp : sys.phase[t]? = some .writing
    swap
    · rw [if_neg hp] at hstep; cases hstep
    rw [if_pos hp] at hstep
    cases hstep
    simp only [ReadWriteLock.write_unlock]
    refine ⟨?_, nofun, nofun, fun h => ?_⟩
    · split_ifs <;> simp only <;> omega
    · split_ifs at h <;> simp only at h <;> omega

theorem write_preference_witness :
    0 < contended.lock._nwrite_waiters ∧
      contended.step 2 .read_lock = some
        { lock := { _nread := 1, _nread_waiters := 1, _nwrite := 0, _nwrite_waiters := 1 }
          phase := [.reading, .write_waiting, .read_waiting] } ∧
      (1 : Nat) ≤ contended.lock._nread ∧
      [Phase.reading, Phase.write_waiting, Phase.read_waiting][2]? = some .read_waiting :=
  ⟨by decide, by decide,
    (write_preference contended _ 2 .read_lock (by decide)
      (show contended.step 2 .read_lock = some
        { lock := { _nread := 1, _nread_waiters := 1, _nwrite := 0, _nwrite_waiters := 1 }
          phase := [.reading, .write_waiting, .read_waiting] } by decide)).1,
    ((write_preference contended _ 2 .read_lock (by decide)
      (show contended.step 2 .read_lock = some
        { lock := { _nread := 1, _nread_waiters := 1, _nwrite := 0, _nwrite_waiters := 1 }
          phase := [.reading, .write_waiting, .read_waiting] } by decide)).2.1 rfl).1⟩

/-! ### What `write_unlock` wakes -/

/-- C17, as stated, fails with two writers waiting: `write_unlock` calls
`_wcond.broadcast()`, which releases both of them, not exactly one. -/
theorem write_unlock_wakes_two :
    (ReadWriteLock.write_unlock
        { _nread := 0, _nread_waiters := 1, _nwrite := 1, _nwrite_waiters := 2 }).2
        = Notify.broadcast Cond.wcond ∧
      (ReadWriteLock.write_unlock
        { _nread := 0, _nread_waiters := 1, _nwrite := 1, _nwrite_waiters := 2 }).2.woken
          Cond.wcond 2 = 2 ∧
      (ReadWriteLock.write_unlock
        { _nread := 0, _nread_waiters := 1, _nwrite := 1, _nwrite_waiters := 2 }).2.woken
          Cond.wcond 2 ≠ 1 := by
  decide

/-- C17, amended. For every lock state, `write_unlock` takes one off a
positive `_nwrite` (an active writer's `1` becomes `0`) and leaves the other
counters;
then, if a writer is waiting, it broadcasts on `_wcond`, which wakes every
waiting writer and no reader; otherwise, if readers are waiting, it
broadcasts on `_rcond`, which wakes every waiting reader and no writer;
otherwise it notifies nobody. -/
theorem write_unlock_broadcasts (l : ReadWriteLock) :
    ((0 < l._nwrite → l.write_unlock.1._nwrite + 1 = l._nwrite) ∧
        (l._nwrite = 1 → l.write_unlock.1._nwrite = 0)) ∧
      (l.write_unlock.1._nread = l._nread ∧
        l.write_unlock.1._nread_waiters = l._nread_waiters ∧
        l.write_unlock.1._nwrite_waiters = l._nwrite_waiters) ∧
      (0 < l._nwrite_waiters →
        l.write_unlock.2 = Notify.broadcast Cond.wcond ∧
          l.write_unlock.2.woken Cond.wcond l._nwrite_waiters = l._nwrite_waiters ∧
          l.write_unlock.2.woken Cond.rcond l._nread_waiters = 0) ∧
      (l._nwrite_waiters = 0 → 0 < l._nread_waiters →
        l.write_unlock.2 = Notify.broadcast Cond.rcond ∧
          l.write_unlock.2.woken Cond.rcond l._nread_waiters = l._nread_waiters ∧
          l.write_unlock.2.woken Cond.wcond l._nwrite_waiters = 0) ∧
      (l._nwrite_waiters = 0 → l._nread_waiters = 0 → l.write_unlock.2 = Notify.nothing) := by
  refine ⟨⟨?_, fun h1 => ?_⟩, ⟨?_, ?_, ?_⟩, fun hw => ?_, fun hw hrd => ?_, fun hw hrd => ?_⟩
  · simp only [ReadWriteLock.write_unlock]; split_ifs <;> simp only <;> omega
  · simp only [ReadWriteLock.write_unlock]; split_ifs <;> simp only [h1]
  · simp only [ReadWriteLock.write_unlock]; split_ifs <;> rfl
  · simp only [ReadWriteLock.write_unlock]; split_ifs <;> rfl
  · simp only [ReadWriteLock.write_unlock]; split_ifs <;> rfl
  · have hne : l._nwrite_waiters ≠ 0 := by omega
    simp only [ReadWriteLock.write_unlock, if_pos hne, Notify.woken, if_true, reduceCtorEq,
      if_false, and_self]
  · have hne : l._nread_waiters ≠ 0 := by omega
    simp only [ReadWriteLock.write_unlock, hw, ne_eq, not_true_eq_false, if_false, if_pos hne,
      Notify.woken, if_true, reduceCtorEq, and_self]
  · simp only [ReadWriteLock.write_unlock, hw, hrd, ne_eq, not_true_eq_false, if_false]

/-! ### Attaching -/

/-- C12, as stated, fails: with capacity 0 and the system calls succeeding,
the owner's `init` returns `true`, reports nothing, and leaves a mapped
segment whose header has capacity 0. -/
theorem init_accepts_capacity_zero :
    (init 0 true true true true blank).ret = true ∧
      (init 0 true true true true blank).errors = [] ∧
      ((init 0 true true true true blank).attached.map (fun seg => seg._hdr))
        = some { _capacity := 0, _begin := 0, _end := 0 } := by
  decide

/-- C12, amended. `init` does not look at the capacity: with capacity 0 it
returns `true` whenever `shm_open` and `mmap` succeed, the handle is then
attached, and for the owner the mapped header is initialised with capacity 0
and `_begin = _end = 0`. -/
theorem init_capacity_zero (master ftruncate_ok : Bool) (seg : ShmRingBuffer T) :
    (init 0 master true ftruncate_ok true seg).ret = true ∧
      (init 0 master true ftruncate_ok true seg).attached.isSome = true ∧
      (master = true →
        (init 0 master true ftruncate_ok true seg).attached = some (init_master 0 seg) ∧
          (init_master 0 seg)._hdr = { _capacity := 0, _begin := 0, _end := 0 }) := by
  cases master <;> cases ftruncate_ok <;> simp [init, init_master]

/-- C13, the code at the failing input: the owner's `ftruncate` fails while
`shm_open` and `mmap` succeed.  `init` only reports "ftruncate failed"
through `perror`, maps the segment, initialises header and lock, and returns
`true`; a failing `shm_open` or `mmap` does make it return `false`. -/
theorem init_ignores_ftruncate_failure :
    (init 4 true true false true blank).ret = true ∧
      (init 4 true true false true blank).errors = ["ftruncate failed"] ∧
      ((init 4 true true false true blank).attached.map (fun seg => (seg._hdr, seg._lock)))
        = some ({ _capacity := 4, _begin := 0, _end := 0 }, ReadWriteLock.init) ∧
      (init 4 true false true true blank).ret = false ∧
      (init 4 true true true false blank).ret = false := by
  decide

/-! ### RingBuffer: elements held after `push_back` and `pop_front` -/

theorem getD_set_same (l : List T) (i : Nat) (a d : T) (h : i < l.length) :
    (l.set i a).getD i d = a := by
  simp [List.getD_eq_getElem?_getD, List.getElem?_set, h]

theorem getD_set_other (l : List T) (i j : Nat) (a d : T) (h : i ≠ j) :
    (l.set i a).getD j d = l.getD j d := by
  simp [List.getD_eq_getElem?_getD, List.getElem?_set, h]

theorem window_getElem? (v : Nat → T) (c i k j : Nat) (hj : j < k) :
    (window v c i k)[j]? = some (v ((i + j) % c)) := by
  simp [window, List.getElem?_map, List.getElem?_range hj]

theorem RingBuffer.toList_length [Inhabited T] (r : RingBuffer T) :
    r.toList.length = r._size :=
  window_length _ _ _ _

/-- On a non-empty well-formed buffer every `operator[]` read lands inside
the vector. -/
theorem RingBuffer.index_eq [Inhabited T] (r : RingBuffer T) (h : r.Wf) (hne : 0 < r._size)
    (j : Nat) : r.index j = some (r._v.getD ((r._head + j) % r._cap) default) := by
  obtain ⟨hc, _, _, _, hv⟩ := h
  have hlen : r._v.length = r._cap := by
    rcases hv with h1 | ⟨_, h2, _⟩
    · exact h1
    · omega
  have hlt : (r._head + j) % r._cap < r._v.length := by rw [hlen]; exact Nat.mod_lt _ hc
  have he : r.empty = false := by
    simp only [RingBuffer.empty, beq_eq_false_iff_ne, ne_eq]; omega
  have hv2 : r._v.isEmpty = false := by
    cases hl : r._v with
    | nil => rw [hl] at hlen; simp at hlen; omega
    | cons a l => rfl
  unfold RingBuffer.index
  rw [he, hv2]
  simp only [Bool.or_self, Bool.false_eq_true, if_false]
  rw [List.getD_eq_getElem?_getD, List.getElem?_eq_getElem hlt]
  rfl

theorem RingBuffer.index_toList [Inhabited T] (r : RingBuffer T) (h : r.Wf) (i : Nat)
    (hi : i < r._size) : r.index i = r.toList[i]? := by
  rw [RingBuffer.index_eq r h (by omega) i]
  unfold RingBuffer.toList
  rw [window_getElem? _ _ _ _ _ hi]


theorem RingBuffer.lazy_vector [Inhabited T] (r : RingBuffer T) (h : r.Wf) :
    (if r._v.isEmpty then List.replicate r._cap default else r._v).length = r._cap ∧
      ∀ j, (if r._v.isEmpty then List.replicate r._cap default else r._v).getD j default
        = r._v.getD j default := by
  obtain ⟨hc, _, _, _, hv⟩ := h
  cases hl : r._v with
  | nil =>
    simp only [List.isEmpty_nil, if_true, List.length_replicate, true_and]
    intro j
    simp only [List.getD_eq_getElem?_getD, List.getElem?_replicate, List.getElem?_nil,
      Option.getD_none]
    split_ifs <;> rfl
  | cons a l =>
    rcases hv with h1 | ⟨h2, _, _⟩
    · rw [hl] at h1
      exact ⟨by simpa using h1, fun _ => rfl⟩
    · rw [hl] at h2; cases h2

theorem RingBuffer.push_back_spec [Inhabited T] (r : RingBuffer T) (t : T) (h : r.Wf) :
    ∃ r1, r.push_back t = some r1 ∧ r1.Wf ∧ r1._cap = r._cap ∧
      r1.toList = (r.toList ++ [t]).drop ((r.toList ++ [t]).length - r._cap) := by
  obtain ⟨hlen, hget⟩ := RingBuffer.lazy_vector r h
  obtain ⟨hc, hh, hs, ht, hv⟩ := h
  have htl : r._tail < r._cap := by rw [ht]; exact Nat.mod_lt _ hc
  have hc0 : r._cap ≠ 0 := by omega
  have hlt : r._tail < (if r._v.isEmpty then List.replicate r._cap default else r._v).length := by
    rw [hlen]; exact htl
  rw [List.length_append, RingBuffer.toList_length, List.length_singleton]
  by_cases hf : r._cap = r._size
  · have hfull : r.full = true := by simp [RingBuffer.full, hf]
    have hpush : r.push_back t = some { r with
        _v := (if r._v.isEmpty then List.replicate r._cap default else r._v).set r._tail t
        _tail := (r._tail + 1) % r._cap
        _head := (r._head + 1) % r._cap } := by
      unfold RingBuffer.push_back
      simp only [if_neg hc0, if_pos hlt, hfull, if_true]
    have hth : r._tail = r._head := by
      rw [ht, ← hf, Nat.add_mod_right, Nat.mod_eq_of_lt hh]
    refine ⟨_, hpush, ?_, rfl, ?_⟩
    · refine ⟨hc, Nat.mod_lt _ hc, hs, ?_, Or.inl (by rw [List.length_set]; exact hlen)⟩
      show (r._tail + 1) % r._cap = ((r._head + 1) % r._cap + r._size) % r._cap
      rw [ht, Nat.mod_add_mod, Nat.mod_add_mod]
      congr 1; omega
    · rw [show r._size + 1 - r._cap = 1 by omega]
      unfold RingBuffer.toList
      simp only
      obtain ⟨m, hm⟩ : ∃ m, r._size = m + 1 := ⟨r._size - 1, by omega⟩
      rw [hm, window_succ_left (fun j => r._v.getD j default), List.cons_append, List.drop_one,
        List.tail_cons, window_succ_right, Nat.mod_add_mod,
        show r._head + 1 + m = r._head + r._cap by omega, Nat.add_mod_right,
        Nat.mod_eq_of_lt hh, ← hth, getD_set_same _ _ _ _ hlt]
      congr 1
      apply window_congr
      intro j hj
      rw [Nat.mod_add_mod, getD_set_other, hget]
      intro heq
      rw [hth] at heq
      have := ring_index_inj (x := 0) (y := j + 1) hh hc (by omega)
        (by rw [Nat.add_zero, Nat.mod_eq_of_lt hh, heq]; congr 1; omega)
      omega
  · have hfull : r.full = false := by simp [RingBuffer.full, hf]
    have hpush : r.push_back t = some { r with
        _v := (if r._v.isEmpty then List.replicate r._cap default else r._v).set r._tail t
        _tail := (r._tail + 1) % r._cap
        _size := r._size + 1 } := by
      unfold RingBuffer.push_back
      simp only [if_neg hc0, if_pos hlt, hfull, Bool.false_eq_true, if_false]
    refine ⟨_, hpush, ?_, rfl, ?_⟩
    · refine ⟨hc, hh, by show r._size + 1 ≤ r._cap; omega, ?_,
        Or.inl (by rw [List.length_set]; exact hlen)⟩
      show (r._tail + 1) % r._cap = (r._head + (r._size + 1)) % r._cap
      rw [ht, Nat.mod_add_mod]
      congr 1
    · rw [show r._size + 1 - r._cap = 0 by omega, List.drop_zero]
      unfold RingBuffer.toList
      simp only
      rw [window_succ_right, ← ht, getD_set_same _ _ _ _ hlt]
      congr 1
      apply window_congr
      intro j hj
      rw [getD_set_other, hget]
      intro heq
      rw [ht] at heq
      have := ring_index_inj hh (by omega) (by omega) heq
      omega

theorem RingBuffer.pop_front_wf (r : RingBuffer T) (h : r.Wf) : r.pop_front.Wf := by
  obtain ⟨hc, hh, hs, ht, hv⟩ := h
  unfold RingBuffer.pop_front
  by_cases he : r._size = 0
  · have : r.empty = true := by simp [RingBuffer.empty, he]
    rw [this]
    exact ⟨hc, hh, hs, ht, hv⟩
  · have : r.empty = false := by
      simp only [RingBuffer.empty, beq_eq_false_iff_ne, ne_eq]; omega
    rw [this]
    simp only [Bool.not_false, if_true]
    refine ⟨hc, Nat.mod_lt _ hc, by show r._size - 1 ≤ r._cap; omega, ?_, ?_⟩
    · show r._tail = ((r._head + 1) % r._cap + (r._size - 1)) % r._cap
      rw [ht, Nat.mod_add_mod]
      congr 1; omega
    · rcases hv with h1 | ⟨_, h2, _⟩
      · exact Or.inl h1
      · omega

theorem RingBuffer.create_wf (cap : Nat) (h : 1 ≤ cap) : (RingBuffer.create cap : RingBuffer T).Wf :=
  ⟨h, h, Nat.zero_le _, (Nat.zero_mod _).symm, Or.inr ⟨rfl, rfl, rfl⟩⟩

theorem RingBuffer.reached_wf [Inhabited T] (r : RingBuffer T) (h : r.Reached) : r.Wf := by
  induction h with
  | create cap hcap => exact RingBuffer.create_wf cap hcap
  | push_back t _ hp ih =>
    obtain ⟨r2, h2, hwf, _, _⟩ := RingBuffer.push_back_spec _ t ih
    rw [hp] at h2
    cases h2
    exact hwf
  | pop_front _ ih => exact RingBuffer.pop_front_wf _ ih

theorem RingBuffer.push_all_spec [Inhabited T] (xs : List T) (r : RingBuffer T) (h : r.Wf) :
    ∃ r1, r.push_all xs = some r1 ∧ r1.Wf ∧ r1._cap = r._cap ∧
      r1.toList = (r.toList ++ xs).drop ((r.toList ++ xs).length - r._cap) := by
  induction xs generalizing r with
  | nil =>
    refine ⟨r, rfl, h, rfl, ?_⟩
    have := h.2.2.1
    rw [List.append_nil, RingBuffer.toList_length, Nat.sub_eq_zero_of_le this, List.drop_zero]
  | cons x xs ih =>
    obtain ⟨r1, h1, hwf1, hcap1, hl1⟩ := RingBuffer.push_back_spec r x h
    obtain ⟨r2, h2, hwf2, hcap2, hl2⟩ := ih r1 hwf1
    refine ⟨r2, ?_, hwf2, by rw [hcap2, hcap1], ?_⟩
    · unfold RingBuffer.push_all at h2 ⊢
      simp only [List.map_cons, RingBuffer.calls, RingBuffer.call, h1]
      exact h2
    · rw [hl2, hl1, hcap1, drop_last_append, List.append_assoc, List.singleton_append]

/-- C14. After pushing `N` values into a fresh `RingBuffer(cap)`, `cap ≥ 1`,
every push having succeeded, `size()` is `min N cap`, the capacity is `cap`,
and for every `i < size()` `operator[](i)` is the `i`-th of the last
`min N cap` pushed values, in push order. -/
theorem ring_push_all_last [Inhabited T] (cap : Nat) (xs : List T) (hcap : 1 ≤ cap) :
    ∃ r, (RingBuffer.create cap).push_all xs = some r ∧
      r.size = min xs.length cap ∧ r.size ≤ cap ∧ r.capacity = cap ∧
      (xs.drop (xs.length - cap)).length = min xs.length cap ∧
      ∀ i, i < r.size → ∃ x, r.index i = some x ∧ (xs.drop (xs.length - cap))[i]? = some x := by
  obtain ⟨r, h1, hwf, hc, hl⟩ := RingBuffer.push_all_spec xs (RingBuffer.create cap)
    (RingBuffer.create_wf cap hcap)
  have hnil : (RingBuffer.create cap : RingBuffer T).toList = [] := rfl
  rw [hnil, List.nil_append] at hl
  have hcc : (RingBuffer.create cap : RingBuffer T)._cap = cap := rfl
  rw [hcc] at hl hc
  have hsz : r._size = min xs.length cap := by
    rw [← RingBuffer.toList_length, hl, List.length_drop]; omega
  refine ⟨r, h1, hsz, by rw [RingBuffer.size, hsz]; omega, hc,
    by rw [List.length_drop]; omega, ?_⟩
  intro i hi
  have hidx := RingBuffer.index_toList r hwf i hi
  rw [hl] at hidx
  have hlt : i < (xs.drop (xs.length - cap)).length := by
    rw [List.length_drop]; unfold RingBuffer.size at hi; omega
  exact ⟨(xs.drop (xs.length - cap))[i], by rw [hidx, List.getElem?_eq_getElem hlt],
    List.getElem?_eq_getElem hlt⟩

theorem ring_push_all_last_witness :
    1 ≤ 8 ∧
      ∃ r, (RingBuffer.create 8).push_all [0, 1, 2, 3, 4, 5, 6, 7, 8, 9] = some r ∧
        r.size = 8 ∧
        ∀ i, i < r.size → ∃ x, r.index i = some x ∧ [2, 3, 4, 5, 6, 7, 8, 9][i]? = some x :=
  ⟨by decide,
    (ring_push_all_last 8 [0, 1, 2, 3, 4, 5, 6, 7, 8, 9] (by decide)).imp
      (fun _ h => ⟨h.1, h.2.1, h.2.2.2.2.2⟩)⟩

/-! ### RingBuffer: `resize` -/

theorem RingBuffer.copy_out_eq [Inhabited T] (r : RingBuffer T) (h : r.Wf) (hne : 0 < r._size)
    (n : Nat) : ∀ i, r.copy_out n i =
      some ((List.range n).map (fun k => r._v.getD ((r._head + (i + k)) % r._cap) default)) := by
  induction n with
  | zero => intro i; rfl
  | succ n ih =>
    intro i
    simp only [RingBuffer.copy_out, RingBuffer.index_eq r h hne i, ih (i + 1), Option.map_some']
    rw [List.range_succ_eq_map, List.map_cons, List.map_map]
    congr 2
    apply List.map_congr_left
    intro k _
    simp only [Function.comp]
    congr 2
    omega

/-- Reading element `i` of a buffer whose head is slot 0 and whose vector
was produced by a copy loop. -/
theorem RingBuffer.index_copied [Inhabited T] (f : Nat → T) (n c sz tl i : Nat) (hsz : 0 < sz)
    (hin : i < n) (hic : i < c) :
    RingBuffer.index
      { _v := (List.range n).map f, _cap := c, _size := sz, _head := 0, _tail := tl } i
      = some (f i) := by
  have he : RingBuffer.empty
      ({ _v := (List.range n).map f, _cap := c, _size := sz, _head := 0, _tail := tl } :
        RingBuffer T) = false := by
    simp only [RingBuffer.empty, beq_eq_false_iff_ne, ne_eq]; omega
  have hv : ((List.range n).map f).isEmpty = false := by
    cases n with
    | zero => omega
    | succ m => rw [List.range_succ_eq_map]; rfl
  unfold RingBuffer.index
  rw [he, hv]
  simp only [Bool.or_self, Bool.false_eq_true, if_false, Nat.zero_add, Nat.mod_eq_of_lt hic]
  simp [List.getElem?_map, List.getElem?_range hin]

/-- C16. For a non-empty buffer reached by `push_back`/`pop_front` and a new
capacity `c ≥ 1`, `resize(c)` succeeds; afterwards `capacity()` is `c`,
`size()` is `min s c` for the old size `s`, and for every `i < size()`
`operator[](i)` is the old `operator[](s - min s c + i)`: the last `min s c`
old elements, in order. -/
theorem resize_keeps_last [Inhabited T] (r : RingBuffer T) (c : Nat) (hr : r.Reached)
    (hne : 0 < r.size) (hc : 1 ≤ c) :
    ∃ r1, r.resize c = some r1 ∧ r1.capacity = c ∧ r1.size = min r.size c ∧
      ∀ i, i < r1.size →
        ∃ x, r1.index i = some x ∧ r.index (r.size - min r.size c + i) = some x := by
  have hwf := RingBuffer.reached_wf r hr
  unfold RingBuffer.size at hne
  have he : r.empty = false := by
    simp only [RingBuffer.empty, beq_eq_false_iff_ne, ne_eq]; omega
  have hc0 : c ≠ 0 := by omega
  by_cases hle : r._size ≤ c
  · refine ⟨⟨(List.range r._size).map
        (fun k => r._v.getD ((r._head + (0 + k)) % r._cap) default), c, r._size, 0, r._size⟩,
      ?_, rfl, ?_, ?_⟩
    · unfold RingBuffer.resize
      rw [if_neg hc0, he]
      simp only [Bool.false_eq_true, if_false, RingBuffer.size, if_pos hle,
        RingBuffer.copy_out_eq r hwf hne, Option.map_some']
    · show r._size = min r._size c
      omega
    · intro i hi
      have hi2 : i < r._size := hi
      refine ⟨_, RingBuffer.index_copied _ _ _ _ _ i hne hi2 (by omega), ?_⟩
      rw [RingBuffer.index_eq r hwf hne]
      simp only [RingBuffer.size]
      congr 3
      omega
  · refine ⟨⟨(List.range (c + 1)).map
        (fun k => r._v.getD ((r._head + (r._size - c + k)) % r._cap) default), c, c, 0, 0⟩,
      ?_, rfl, ?_, ?_⟩
    · unfold RingBuffer.resize
      rw [if_neg hc0, he]
      simp only [Bool.false_eq_true, if_false, RingBuffer.size, if_neg hle,
        RingBuffer.copy_out_eq r hwf hne, Option.map_some']
    · show c = min r._size c
      omega
    · intro i hi
      have hi2 : i < c := hi
      refine ⟨_, RingBuffer.index_copied _ _ _ _ _ i (by omega) (by omega) hi2, ?_⟩
      rw [RingBuffer.index_eq r hwf hne]
      simp only [RingBuffer.size]
      congr 3
      omega

theorem RingBuffer.reached_push_all [Inhabited T] (xs : List T) (r r1 : RingBuffer T)
    (h : r.Reached) (hp : r.push_all xs = some r1) : r1.Reached := by
  induction xs generalizing r with
  | nil =>
    simp only [RingBuffer.push_all, List.map_nil, RingBuffer.calls, Option.some.injEq] at hp
    rw [← hp]; exact h
  | cons x xs ih =>
    unfold RingBuffer.push_all at hp
    simp only [List.map_cons, RingBuffer.calls, RingBuffer.call] at hp
    cases hx : r.push_back x with
    | none => rw [hx] at hp; cases hp
    | some r2 =>
      rw [hx] at hp
      exact ih r2 (RingBuffer.Reached.push_back x h hx) hp

theorem resize_keeps_last_witness :
    ring_4_to_12.Reached ∧ 0 < ring_4_to_12.size ∧ 1 ≤ 6 ∧
      ∃ r1, ring_4_to_12.resize 6 = some r1 ∧ r1.capacity = 6 ∧
        r1.size = min ring_4_to_12.size 6 ∧
        ∀ i, i < r1.size →
          ∃ x, r1.index i = some x ∧
            ring_4_to_12.index (ring_4_to_12.size - min ring_4_to_12.size 6 + i) = some x :=
  ⟨RingBuffer.Reached.pop_front
      (RingBuffer.reached_push_all [0, 1, 2, 3, 4, 5, 6, 7, 8, 9, 10, 11, 12] _
        ⟨[10, 11, 12, 3, 4, 5, 6, 7, 8, 9], 10, 10, 3, 3⟩
        (RingBuffer.Reached.create 10 (by decide)) (by decide)),
    by decide, by decide,
    resize_keeps_last ring_4_to_12 6
      (RingBuffer.Reached.pop_front
        (RingBuffer.reached_push_all [0, 1, 2, 3, 4, 5, 6, 7, 8, 9, 10, 11, 12] _
          ⟨[10, 11, 12, 3, 4, 5, 6, 7, 8, 9], 10, 10, 3, 3⟩
          (RingBuffer.Reached.create 10 (by decide)) (by decide)))
      (by decide) (by decide)⟩

/-! ### RingBuffer: `back()` and the state `resize` leaves -/

/-- C15, the code at the failing input. After `push_back` of `5, 6, 7` into a
fresh `RingBuffer(8)`, `back()` (either overload) reads slot `_tail = 3`, the
default-constructed `0`, while the most recently pushed element
`operator[](size() - 1)` is `7`; `front()` is `operator[](0)`, `5`.  On the
full `RingBuffer(2)` holding `5, 6`, `_tail == _head` and `back()` returns the
oldest element `5`. -/
theorem back_reads_slot_at_tail :
    ((RingBuffer.create 8 : RingBuffer Nat).push_all [5, 6, 7]).map
        (fun r => (r._tail, r.back, r.back_const, r.index (r.size - 1), r.front, r.index 0))
        = some (3, some 0, some 0, some 7, some 5, some 5) ∧
      ((RingBuffer.create 2 : RingBuffer Nat).push_all [5, 6]).map
        (fun r => (r.back, r.back_const, r.index (r.size - 1)))
        = some (some 5, some 5, some 6) :=
  ⟨rfl, rfl⟩

/-- C20, the code at the failing input. The calls of the test program up to
`resize(10)` leave a vector of 8 elements under capacity 10 with `_tail = 8`:
the vector is neither empty nor of `_cap` elements, and the next `push_back`
writes slot 8, outside it.  After `resize(2)` on a full `RingBuffer(2)`,
`_tail` is `2`, not below `_cap`, and differs from `(_head + _size) % _cap`. -/
theorem resize_breaks_representation :
    (RingBuffer.create 8).calls test_calls
        = some { _v := [4, 5, 6, 7, 8, 9, 10, 11], _cap := 10, _size := 8, _head := 0,
                 _tail := 8 } ∧
      ¬ RingBuffer.RepInv
        ({ _v := [4, 5, 6, 7, 8, 9, 10, 11], _cap := 10, _size := 8, _head := 0, _tail := 8 } :
          RingBuffer Nat) ∧
      RingBuffer.push_back
        ({ _v := [4, 5, 6, 7, 8, 9, 10, 11], _cap := 10, _size := 8, _head := 0, _tail := 8 } :
          RingBuffer Nat) 12 = none ∧
      (RingBuffer.create 2).calls [.push_back 1, .push_back 2, .resize 2]
        = some { _v := [1, 2], _cap := 2, _size := 2, _head := 0, _tail := 2 } ∧
      ¬ RingBuffer.RepInv
        ({ _v := [1, 2], _cap := 2, _size := 2, _head := 0, _tail := 2 } : RingBuffer Nat) := by
  decide


end ShmRing
